import Mathlib

set_option linter.unusedVariables false

/-!
Shallow embedding of `src/random_graph.hpp` (class `RandomGraph`): the three
graph generators (`generateErdosRenyi`, `generateBarabasiAlbert`,
`generateWattsStrogatz`), the node sampler `generateNode`, and the layout
step `update`, together with theorems about them.

Modelling conventions:
* `float` values are embedded as rationals (`ℚ`); the transcendental library
  primitives the source calls (`std::sqrt` via `ofVec3f::distance` and
  `ofVec3f::getNormalized`, `std::sin`/`std::cos`, `M_PI`, `ofSignedNoise`)
  are abstract parameters gathered in an `Env`, so theorems quantify over
  them (with explicit hypotheses such as `sqrtQ 0 = 0` where a property of
  the real function is needed).
* `std::mt19937` together with the `<random>` distributions is embedded as a
  stream of underlying uniform draws in `[0, 1)`; each distribution object
  consumes one draw and transforms it (`bernoulli p` is `u < p`, matching
  `generate_canonical < p`; `uniform_real(lo,hi)` is `lo + u*(hi-lo)`;
  `uniform_int(0,n-1)` is `⌊u*n⌋`; `normal(m,s)` is modelled as `m + s*u`
  since no claim depends on the distribution shape, only on the draw being
  consumed; `discrete_distribution` picks the index whose cumulative-weight
  interval contains `u * totalWeight`).
* Loop counters and node indices are `int` in the source but only ever hold
  nonnegative values in the loops modelled here; they are embedded as `ℕ`.
* Out-of-bounds `std::vector` indexing (undefined behavior in C++) and a
  `std::discrete_distribution` whose weights sum to zero (a violated
  precondition, undefined behavior in C++) are modelled as aborting errors
  (`GenError.outOfBounds`, `GenError.invalidDistribution`), carrying the
  mutated-so-far state, which is what an aborted in-place mutation leaves
  observable.
* The members `mVertices`, camera, fonts and shader are presentation-layer
  state never read by generation or by the physics of `update`; they are
  omitted from the state.
-/

namespace RandomGraph

/-- Abstract real-valued primitives the source calls from external libraries:
`sqrtQ` models `std::sqrt` (used by `ofVec3f::distance` and
`ofVec3f::getNormalized`), `sinQ`/`cosQ` model `std::sin`/`std::cos`,
`piQ` models `M_PI`, `noiseQ` models `ofSignedNoise`. -/
structure Env where
  sqrtQ : ℚ → ℚ
  sinQ : ℚ → ℚ
  cosQ : ℚ → ℚ
  piQ : ℚ
  noiseQ : ℚ → ℚ → ℚ → ℚ

/-- `ofVec3f`, with `float` components embedded as rationals. -/
structure Vec3 where
  x : ℚ
  y : ℚ
  z : ℚ
deriving DecidableEq

def Vec3.zero : Vec3 := ⟨0, 0, 0⟩

instance : Inhabited Vec3 := ⟨Vec3.zero⟩

instance : Add Vec3 := ⟨fun a b => ⟨a.x + b.x, a.y + b.y, a.z + b.z⟩⟩

instance : Sub Vec3 := ⟨fun a b => ⟨a.x - b.x, a.y - b.y, a.z - b.z⟩⟩

instance : SMul ℚ Vec3 := ⟨fun c v => ⟨c * v.x, c * v.y, c * v.z⟩⟩

/-- Squared Euclidean norm `x*x + y*y + z*z`. -/
def Vec3.normSq (v : Vec3) : ℚ := v.x * v.x + v.y * v.y + v.z * v.z

/-- `ofVec3f::distance`: `sqrt` of the squared norm of the difference. -/
def Vec3.distance (env : Env) (a b : Vec3) : ℚ := env.sqrtQ (Vec3.normSq (a - b))

/-- `ofVec3f::getNormalized`: divides each component by the length when the
length is positive, and returns the zero vector otherwise. -/
def Vec3.getNormalized (env : Env) (v : Vec3) : Vec3 :=
  let length := env.sqrtQ v.normSq
  if 0 < length then (1 / length) • v else Vec3.zero

/-- `RandomGraph::Node`. `generateNode` aggregate-initializes only
`mPosition`; the remaining members are value-initialized to zero. -/
structure Node where
  mPosition : Vec3
  mVelocity : Vec3
  mAcceleration : Vec3
deriving DecidableEq

instance : Inhabited Node := ⟨⟨Vec3.zero, Vec3.zero, Vec3.zero⟩⟩

/-- `RandomGraph::Edge`. Head/tail are indices into the node list. -/
structure Edge where
  mHead : ℕ
  mTail : ℕ
  mLength : ℚ
  mWeight : ℚ
deriving DecidableEq

/-- The entries of `mParams` read by the core (generation and `update`). -/
structure Params where
  edgeWeightMin : ℚ
  edgeWeightMax : ℚ
  perlinNoiseNorm : ℚ
  deltaTime : ℚ

/-- The random engine `mEngine`: a stream of underlying uniform draws in
`[0, 1)` together with a cursor. -/
structure Rng where
  stream : ℕ → ℚ
  idx : ℕ

def Rng.next (g : Rng) : ℚ × Rng := (g.stream g.idx, { g with idx := g.idx + 1 })

/-- Every underlying draw of the engine lies in `[0, 1)`, the contract of
`generate_canonical`. -/
def Rng.InRange (g : Rng) : Prop := ∀ n, 0 ≤ g.stream n ∧ g.stream n < 1

/-- `std::bernoulli_distribution(p)(engine)`: true iff the canonical draw is
below `p`. -/
def bernoulli (p : ℚ) (g : Rng) : Bool × Rng :=
  let (u, g1) := g.next
  (decide (u < p), g1)

/-- `std::uniform_real_distribution<float>(lo, hi)(engine)`. -/
def uniformReal (lo hi : ℚ) (g : Rng) : ℚ × Rng :=
  let (u, g1) := g.next
  (lo + u * (hi - lo), g1)

/-- `std::normal_distribution<float>(mean, std)(engine)`; the Gaussian shape
is irrelevant to every claim, so the transform of the underlying draw is
modelled as the affine map `mean + std * u`. -/
def normalDraw (mean std : ℚ) (g : Rng) : ℚ × Rng :=
  let (u, g1) := g.next
  (mean + std * u, g1)

/-- `std::uniform_int_distribution<int>(0, n - 1)(engine)`: an integer in
`[0, n-1]`, obtained by scaling the canonical draw. -/
def uniformIntBelow (n : ℕ) (g : Rng) : ℕ × Rng :=
  let (u, g1) := g.next
  ((⌊u * (n : ℚ)⌋).toNat, g1)

/-- Index selected by a cumulative-weight scan: the first index whose
cumulative interval contains `x`. -/
def pickIndex (x : ℚ) : List ℕ → ℕ
  | [] => 0
  | w :: ws => if x < (w : ℚ) then 0 else pickIndex (x - (w : ℚ)) ws + 1

/-- Failure taxonomy. `invalidParameter` appears in the specification's error
taxonomy; the source contains no parameter check and never produces it.
`invalidDistribution` models the violated precondition of
`std::discrete_distribution` (no positive weight); `outOfBounds` models
out-of-range `std::vector` indexing. -/
inductive GenError where
  | invalidParameter
  | invalidDistribution
  | outOfBounds
deriving DecidableEq

/-- `std::discrete_distribution<int>(ws.begin(), ws.end())(engine)`: with an
empty weight range the distribution has the single weight `1` and yields `0`;
with all weights zero the C++ precondition is violated (modelled as
`invalidDistribution`); otherwise the index whose cumulative-weight interval
contains `u * sum` is returned. -/
def discreteDraw (ws : List ℕ) (g : Rng) : Except GenError (ℕ × Rng) :=
  if ws.isEmpty then .ok (0, g)
  else if ws.sum = 0 then .error .invalidDistribution
  else
    let (u, g1) := g.next
    .ok (pickIndex (u * (ws.sum : ℚ)) ws, g1)

/-- The mutable state of the `RandomGraph` instance observed by the claims:
node list `mNodes`, edge list `mEdges`, engine `mEngine`. -/
structure GraphState where
  mNodes : List Node
  mEdges : List Edge
  mEngine : Rng

/-- Result of a generation call: success, or an aborting error together with
the state as mutated up to the abort point. -/
inductive GenResult where
  | ok : GraphState → GenResult
  | err : GenError → GraphState → GenResult

/-- The state observable after a generation call, successful or not. -/
def GenResult.state : GenResult → GraphState
  | .ok s => s
  | .err _ s => s

def GenResult.isOk : GenResult → Bool
  | .ok _ => true
  | .err _ _ => false

/-- `RandomGraph::generateNode`: draws radius, theta, phi and maps to
Cartesian coordinates; velocity and acceleration are value-initialized. -/
def generateNode (env : Env) (radiusMean radiusStd : ℚ) (g : Rng) : Node × Rng :=
  let (radius, g1) := normalDraw radiusMean radiusStd g
  let (theta, g2) := uniformReal (-env.piQ) env.piQ g1
  let (phi, g3) := uniformReal (-env.piQ) env.piQ g2
  ({ mPosition := ⟨radius * env.sinQ theta * env.cosQ phi,
                   radius * env.sinQ theta * env.sinQ phi,
                   radius * env.cosQ theta⟩,
     mVelocity := Vec3.zero, mAcceleration := Vec3.zero }, g3)

/-- Position of node `k`, `mNodes[k].mPosition`. Generation only ever indexes
in bounds (proved below); the default is never reached on the source's paths. -/
def posAt (nodes : List Node) (k : ℕ) : Vec3 := (nodes.getD k default).mPosition

/-- One iteration of a node-creation loop: `mNodes.emplace_back(generateNode(...))`. -/
def pushNode (env : Env) (radiusMean radiusStd : ℚ) (s : GraphState) : GraphState :=
  let (nd, g1) := generateNode env radiusMean radiusStd s.mEngine
  { s with mNodes := s.mNodes ++ [nd], mEngine := g1 }

/-- Body of the Erdős–Rényi pair loop for the pair `(i, j)`: a Bernoulli draw,
and on success a weight draw and `mEdges.emplace_back(Edge{i, j, distance, weight})`. -/
def erPairStep (env : Env) (P : Params) (edgeProb : ℚ) (i j : ℕ) (s : GraphState) :
    GraphState :=
  let (b, g1) := bernoulli edgeProb s.mEngine
  if b then
    let (w, g2) := uniformReal P.edgeWeightMin P.edgeWeightMax g1
    { s with mEngine := g2,
             mEdges := s.mEdges ++
               [⟨i, j, Vec3.distance env (posAt s.mNodes i) (posAt s.mNodes j), w⟩] }
  else { s with mEngine := g1 }

/-- `RandomGraph::generateErdosRenyi`: clear and regenerate `mNodes`, clear
`mEdges`, then for every `i < numNodes` and `j < i` run the pair step. -/
def generateErdosRenyi (env : Env) (P : Params) (numNodes : ℕ)
    (radiusMean radiusStd edgeProb : ℚ) (s : GraphState) : GraphState :=
  let s1 : GraphState := { s with mNodes := [] }
  let s2 := (List.range numNodes).foldl (fun st _ => pushNode env radiusMean radiusStd st) s1
  let s3 : GraphState := { s2 with mEdges := [] }
  (List.range numNodes).foldl
    (fun st i => (List.range i).foldl (fun st2 j => erPairStep env P edgeProb i j st2) st) s3

/-- One increment `++degrees[k]` of the degree-counting loop. -/
def bumpAt (l : List ℕ) (k : ℕ) : List ℕ := l.set k (l.getD k 0 + 1)

/-- The degree sequence `std::vector<int> degrees(mNodes.size(), 0)` followed
by `++degrees[edge.mHead]; ++degrees[edge.mTail]` for every edge. -/
def computeDegrees (n : ℕ) (edges : List Edge) : List ℕ :=
  edges.foldl (fun d e => bumpAt (bumpAt d e.mHead) e.mTail) (List.replicate n 0)

/-- Inner attachment loop of Barabási–Albert for the new node `i`, with
`count` draws remaining: each iteration performs a degree-weighted draw `k`
and a weight draw and appends `Edge{i, k, distance(i, k), weight}`. -/
def baAttach (env : Env) (P : Params) (i : ℕ) (degrees : List ℕ) :
    (count : ℕ) → GraphState → GenResult
  | 0, s => .ok s
  | count + 1, s =>
    match discreteDraw degrees s.mEngine with
    | .error e => .err e s
    | .ok (k, g1) =>
      let (w, g2) := uniformReal P.edgeWeightMin P.edgeWeightMax g1
      baAttach env P i degrees count
        { s with mEngine := g2,
                 mEdges := s.mEdges ++
                   [⟨i, k, Vec3.distance env (posAt s.mNodes i) (posAt s.mNodes k), w⟩] }

/-- One growth iteration of Barabási–Albert at loop index `i`: recompute the
degree sequence over the current nodes, append the new node, then attach
`numEdges` edges. -/
def baGrow (env : Env) (P : Params) (radiusMean radiusStd : ℚ) (numEdges i : ℕ)
    (s : GraphState) : GenResult :=
  let degrees := computeDegrees s.mNodes.length s.mEdges
  let s1 := pushNode env radiusMean radiusStd s
  baAttach env P i degrees numEdges s1

/-- The growth loop `for (i = numEdges; i < numNodes; ++i)`, with `i` the
current loop index and `count` iterations remaining. -/
def baGrowLoop (env : Env) (P : Params) (radiusMean radiusStd : ℚ) (numEdges : ℕ) :
    (i count : ℕ) → GraphState → GenResult
  | _, 0, s => .ok s
  | i, count + 1, s =>
    match baGrow env P radiusMean radiusStd numEdges i s with
    | .ok s1 => baGrowLoop env P radiusMean radiusStd numEdges (i + 1) count s1
    | .err e s1 => .err e s1

/-- `RandomGraph::generateBarabasiAlbert`: seed via Erdős–Rényi with edge
probability `1.0` over `numEdges` nodes, then grow node by node. -/
def generateBarabasiAlbert (env : Env) (P : Params) (numNodes : ℕ)
    (radiusMean radiusStd : ℚ) (numEdges : ℕ) (s : GraphState) : GenResult :=
  let s1 := generateErdosRenyi env P numEdges radiusMean radiusStd 1 s
  baGrowLoop env P radiusMean radiusStd numEdges numEdges (numNodes - numEdges) s1

/-- Ascending lexicographic order on `(distance, index)` pairs, the order
`std::sort` uses on `std::pair<float, int>`. -/
def pairLe (a b : ℚ × ℕ) : Prop := a.1 < b.1 ∨ (a.1 = b.1 ∧ a.2 ≤ b.2)

instance : DecidableRel pairLe := fun a b =>
  inferInstanceAs (Decidable (a.1 < b.1 ∨ (a.1 = b.1 ∧ a.2 ≤ b.2)))

/-- The sorted candidate list of Watts–Strogatz for node `i`:
`(distance(j, i), j)` for every `j < numNodes`, sorted ascending. `std::sort`
is modelled by insertion sort; the keys are pairwise-distinct pairs ordered
by a total order, so any comparison sort produces this list. -/
def wsNorms (env : Env) (numNodes : ℕ) (nodes : List Node) (i : ℕ) : List (ℚ × ℕ) :=
  List.insertionSort pairLe
    ((List.range numNodes).map
      (fun j => (Vec3.distance env (posAt nodes j) (posAt nodes i), j)))

/-- Inner edge loop of Watts–Strogatz for node `i`, with `j` the current loop
index and `count` iterations remaining: draw a weight, then a rewire
Bernoulli; on rewire draw a uniform target `k`, otherwise take
`norms[j].second` — out of bounds when `j ≥ norms.size()`, modelled as an
abort. -/
def wsEdgeLoop (env : Env) (P : Params) (numNodes i : ℕ) (rewireProb : ℚ)
    (norms : List (ℚ × ℕ)) : (j count : ℕ) → GraphState → GenResult
  | _, 0, s => .ok s
  | j, count + 1, s =>
    let (w, g1) := uniformReal P.edgeWeightMin P.edgeWeightMax s.mEngine
    let (b, g2) := bernoulli rewireProb g1
    if b then
      let (k, g3) := uniformIntBelow numNodes g2
      wsEdgeLoop env P numNodes i rewireProb norms (j + 1) count
        { s with mEngine := g3,
                 mEdges := s.mEdges ++
                   [⟨i, k, Vec3.distance env (posAt s.mNodes i) (posAt s.mNodes k), w⟩] }
    else
      if h : j < norms.length then
        let k := (norms.get ⟨j, h⟩).2
        wsEdgeLoop env P numNodes i rewireProb norms (j + 1) count
          { s with mEngine := g2,
                   mEdges := s.mEdges ++
                     [⟨i, k, Vec3.distance env (posAt s.mNodes i) (posAt s.mNodes k), w⟩] }
      else .err .outOfBounds { s with mEngine := g2 }

/-- Outer node loop of Watts–Strogatz, with `i` the current loop index and
`count` iterations remaining. -/
def wsNodeLoop (env : Env) (P : Params) (numNodes numNeighbors : ℕ)
    (rewireProb : ℚ) : (i count : ℕ) → GraphState → GenResult
  | _, 0, s => .ok s
  | i, count + 1, s =>
    match wsEdgeLoop env P numNodes i rewireProb (wsNorms env numNodes s.mNodes i)
        0 numNeighbors s with
    | .ok s1 => wsNodeLoop env P numNodes numNeighbors rewireProb (i + 1) count s1
    | .err e s1 => .err e s1

/-- `RandomGraph::generateWattsStrogatz`: clear and regenerate `mNodes`,
clear `mEdges`, then run the node loop. -/
def generateWattsStrogatz (env : Env) (P : Params) (numNodes : ℕ)
    (radiusMean radiusStd : ℚ) (numNeighbors : ℕ) (rewireProb : ℚ)
    (s : GraphState) : GenResult :=
  let s1 : GraphState := { s with mNodes := [] }
  let s2 := (List.range numNodes).foldl (fun st _ => pushNode env radiusMean radiusStd st) s1
  let s3 : GraphState := { s2 with mEdges := [] }
  wsNodeLoop env P numNodes numNeighbors rewireProb 0 numNodes s3

/-- First loop of `update`: acceleration set to the noise field sampled at
the node's position (axes decorrelated by rotating the arguments), scaled by
`perlinNoiseNorm`. -/
def noiseStep (env : Env) (P : Params) (nd : Node) : Node :=
  { nd with mAcceleration :=
      P.perlinNoiseNorm •
        (⟨env.noiseQ nd.mPosition.x nd.mPosition.y nd.mPosition.z,
          env.noiseQ nd.mPosition.y nd.mPosition.z nd.mPosition.x,
          env.noiseQ nd.mPosition.z nd.mPosition.x nd.mPosition.y⟩ : Vec3) }

/-- In-place `mNodes[k].mAcceleration = f(mNodes[k].mAcceleration)`. -/
def addAccelAt (nodes : List Node) (k : ℕ) (f : Vec3 → Vec3) : List Node :=
  nodes.set k
    (let nd := nodes.getD k default
     { nd with mAcceleration := f nd.mAcceleration })

/-- `stretch = direction - direction.getNormalized() * edge.mLength` with
`direction = mNodes[tail].mPosition - mNodes[head].mPosition`. -/
def edgeStretch (env : Env) (nodes : List Node) (e : Edge) : Vec3 :=
  let direction := posAt nodes e.mTail - posAt nodes e.mHead
  direction - e.mLength • Vec3.getNormalized env direction

/-- Body of `update`'s edge loop: the weighted stretch is added to the head's
acceleration and subtracted from the tail's. -/
def applyEdge (env : Env) (nodes : List Node) (e : Edge) : List Node :=
  let stretch := edgeStretch env nodes e
  let nodes1 := addAccelAt nodes e.mHead (fun a => a + e.mWeight • stretch)
  addAccelAt nodes1 e.mTail (fun a => a - e.mWeight • stretch)

/-- Last loop of `update`: `velocity += acceleration * dt` followed by
`position += velocity * dt + 0.5 * acceleration * dt * dt` (the updated
velocity is used). -/
def integrateStep (P : Params) (nd : Node) : Node :=
  let v := nd.mVelocity + P.deltaTime • nd.mAcceleration
  { nd with mVelocity := v,
            mPosition := nd.mPosition + P.deltaTime • v +
              ((1 / 2) * P.deltaTime * P.deltaTime) • nd.mAcceleration }

/-- `RandomGraph::update` restricted to the model state (the trailing
`mVertices` recomputation feeds only the excluded presentation layer and
reads nothing the next step observes). -/
def update (env : Env) (P : Params) (s : GraphState) : GraphState :=
  let nodes1 := s.mNodes.map (noiseStep env P)
  let nodes2 := s.mEdges.foldl (applyEdge env) nodes1
  { s with mNodes := nodes2.map (integrateStep P) }

/-- `n` consecutive calls of `update`. -/
def updateN (env : Env) (P : Params) : ℕ → GraphState → GraphState
  | 0, s => s
  | n + 1, s => updateN env P n (update env P s)

/-- The error component of a generation result, `none` on success. -/
def GenResult.errCode : GenResult → Option GenError
  | .ok _ => none
  | .err e _ => some e

/-! ### Concrete instantiations used by the closed theorems. -/

/-- A concrete environment for closed runs: `sqrtQ` is the identity, which
agrees with the real square root on every squared norm arising in those runs
(`0`, `1` and values used only for ordering); `sin` and `cos` are constantly
`1`, so a node sampled with radius `r` sits at `(r, r, r)`; noise is zero. -/
def env0 : Env := ⟨id, fun _ => 1, fun _ => 1, 0, fun _ _ _ => 0⟩

/-- Concrete parameters: zero weight range, zero noise, zero time step. -/
def P0 : Params := ⟨0, 0, 0, 0⟩

/-- A concrete engine: the fourth underlying draw is `1/2`, all others `0`;
every value lies in `[0, 1)`. With `env0` and `radiusStd = 2` the first two
sampled nodes sit at `(0,0,0)` and `(1,1,1)`. -/
def rng0 : Rng := ⟨fun n => if n = 3 then 1/2 else 0, 0⟩

/-- The initial state: empty model, engine `rng0`. -/
def s0 : GraphState := ⟨[], [], rng0⟩

/-- A previously generated valid model: Erdős–Rényi with `edgeProb = 1` on
two nodes, so two nodes and one edge `(1, 0)`. -/
def sPrev : GraphState := generateErdosRenyi env0 P0 2 0 2 1 s0

/-- Projection of an edge to its endpoint pair `(head, tail)`. -/
def edgePair (e : Edge) : ℕ × ℕ := (e.mHead, e.mTail)

/-- All pairs `(i, j)` with `j < i < n`, in the emission order of the
Erdős–Rényi double loop. -/
def allPairs (n : ℕ) : List (ℕ × ℕ) :=
  (List.range n).flatMap (fun i => (List.range i).map (fun j => (i, j)))


/-! ### Basic facts about the engine and the draws.
Every draw advances only the cursor of the engine; the underlying stream is
unchanged, so the range contract `Rng.InRange` is preserved across draws. -/

theorem inRange_of_stream_eq {g1 g2 : Rng} (h : g2.stream = g1.stream)
    (h1 : g1.InRange) : g2.InRange := fun n => h ▸ h1 n

theorem bernoulli_stream (p : ℚ) (g : Rng) : (bernoulli p g).2.stream = g.stream := rfl

theorem uniformReal_stream (lo hi : ℚ) (g : Rng) :
    (uniformReal lo hi g).2.stream = g.stream := rfl

theorem uniformIntBelow_stream (n : ℕ) (g : Rng) :
    (uniformIntBelow n g).2.stream = g.stream := rfl

theorem generateNode_stream (env : Env) (rM rS : ℚ) (g : Rng) :
    (generateNode env rM rS g).2.stream = g.stream := rfl

theorem bernoulli_true {p : ℚ} {g : Rng} (h : g.InRange) (hp : 1 ≤ p) :
    (bernoulli p g).1 = true := by
  have hu := (h g.idx).2
  simp only [bernoulli, Rng.next, decide_eq_true_eq]
  linarith

theorem bernoulli_false {p : ℚ} {g : Rng} (h : g.InRange) (hp : p ≤ 0) :
    (bernoulli p g).1 = false := by
  have hu := (h g.idx).1
  simp only [bernoulli, Rng.next, decide_eq_false_iff_not, not_lt]
  linarith

theorem uniformIntBelow_lt {n : ℕ} {g : Rng} (h : g.InRange) (hn : 1 ≤ n) :
    (uniformIntBelow n g).1 < n := by
  obtain ⟨h0, h1⟩ := h g.idx
  have hnq : (0 : ℚ) < n := by exact_mod_cast hn
  have h4 : g.stream g.idx * (n : ℚ) < (n : ℚ) := by nlinarith
  have h5 : ⌊g.stream g.idx * (n : ℚ)⌋ < (n : ℤ) := by
    rw [Int.floor_lt]
    exact_mod_cast h4
  simp only [uniformIntBelow, Rng.next]
  omega

theorem pickIndex_lt : ∀ (ws : List ℕ) (x : ℚ), 0 ≤ x → x < (ws.sum : ℚ) →
    pickIndex x ws < ws.length := by
  intro ws
  induction ws with
  | nil =>
    intro x h0 hs
    simp only [List.sum_nil, Nat.cast_zero] at hs
    linarith
  | cons w ws ih =>
    intro x h0 hs
    simp only [pickIndex]
    split
    · simp
    · rename_i hx
      push_neg at hx
      have h0' : 0 ≤ x - (w : ℚ) := by linarith
      have hs' : x - (w : ℚ) < (ws.sum : ℚ) := by
        rw [List.sum_cons] at hs
        push_cast at hs ⊢
        linarith
      have hlt := ih (x - (w : ℚ)) h0' hs'
      simp only [List.length_cons]
      omega

theorem discreteDraw_spec {ws : List ℕ} {g : Rng} (h : g.InRange)
    (hne : ws ≠ []) (hs : ws.sum ≠ 0) :
    discreteDraw ws g =
      .ok (pickIndex (g.stream g.idx * (ws.sum : ℚ)) ws, g.next.2) ∧
      pickIndex (g.stream g.idx * (ws.sum : ℚ)) ws < ws.length ∧
      g.next.2.stream = g.stream := by
  obtain ⟨h0, h1⟩ := h g.idx
  have hE : ws.isEmpty = false := by
    cases ws with
    | nil => exact absurd rfl hne
    | cons a l => rfl
  have hsq : (0 : ℚ) < (ws.sum : ℚ) := by
    have : 0 < ws.sum := Nat.pos_of_ne_zero hs
    exact_mod_cast this
  refine ⟨?_, ?_, rfl⟩
  · simp [discreteDraw, hE, hs, Rng.next]
  · exact pickIndex_lt ws _ (by nlinarith) (by nlinarith)

/-! ### Structure of `generateErdosRenyi` -/

theorem erPairStep_mNodes (env : Env) (P : Params) (p : ℚ) (i j : ℕ) (s : GraphState) :
    (erPairStep env P p i j s).mNodes = s.mNodes := by
  rcases hbg : bernoulli p s.mEngine with ⟨b, g1⟩
  cases b <;> simp [erPairStep, hbg]

theorem erPairStep_stream (env : Env) (P : Params) (p : ℚ) (i j : ℕ) (s : GraphState) :
    (erPairStep env P p i j s).mEngine.stream = s.mEngine.stream := by
  rcases hbg : bernoulli p s.mEngine with ⟨b, g1⟩
  have hg1 : g1.stream = s.mEngine.stream := by
    have h := bernoulli_stream p s.mEngine
    rw [hbg] at h
    exact h
  cases b <;> simp [erPairStep, hbg, hg1, uniformReal, Rng.next]

theorem erPairStep_pairs (env : Env) (P : Params) (p : ℚ) (i j : ℕ) (s : GraphState) :
    (erPairStep env P p i j s).mEdges.map edgePair =
      s.mEdges.map edgePair ++ (if (bernoulli p s.mEngine).1 then [(i, j)] else []) := by
  rcases hbg : bernoulli p s.mEngine with ⟨b, g1⟩
  cases b <;> simp [erPairStep, hbg, edgePair]

theorem erPairStep_edges_sub (env : Env) (P : Params) (p : ℚ) (i j : ℕ) (s : GraphState) :
    ∀ e ∈ (erPairStep env P p i j s).mEdges, e ∈ s.mEdges ∨ edgePair e = (i, j) := by
  rcases hbg : bernoulli p s.mEngine with ⟨b, g1⟩
  cases b with
  | false =>
    intro e he
    simp only [erPairStep, hbg] at he
    exact Or.inl he
  | true =>
    intro e he
    simp [erPairStep, hbg] at he
    rcases he with he | he
    · exact Or.inl he
    · exact Or.inr (by simp [he, edgePair])

theorem erInner_pairs (env : Env) (P : Params) {p : ℚ} (hp : 1 ≤ p) (i : ℕ) :
    ∀ (l : List ℕ) (st : GraphState), st.mEngine.InRange →
      ((l.foldl (fun st2 j => erPairStep env P p i j st2) st).mNodes = st.mNodes ∧
       (l.foldl (fun st2 j => erPairStep env P p i j st2) st).mEngine.stream
          = st.mEngine.stream ∧
       (l.foldl (fun st2 j => erPairStep env P p i j st2) st).mEdges.map edgePair
          = st.mEdges.map edgePair ++ l.map (fun j => (i, j))) := by
  intro l
  induction l with
  | nil => intro st h; simp
  | cons a l ih =>
    intro st h
    have hstep := erPairStep_pairs env P p i a st
    rw [bernoulli_true h hp] at hstep
    have hstream := erPairStep_stream env P p i a st
    have h2 : (erPairStep env P p i a st).mEngine.InRange :=
      inRange_of_stream_eq hstream h
    obtain ⟨n1, n2, n3⟩ := ih (erPairStep env P p i a st) h2
    refine ⟨?_, ?_, ?_⟩
    · simp only [List.foldl_cons]
      rw [n1, erPairStep_mNodes]
    · simp only [List.foldl_cons]
      rw [n2, hstream]
    · simp only [List.foldl_cons]
      rw [n3, hstep]
      simp

theorem erInner_pairs_zero (env : Env) (P : Params) {p : ℚ} (hp : p ≤ 0) (i : ℕ) :
    ∀ (l : List ℕ) (st : GraphState), st.mEngine.InRange →
      ((l.foldl (fun st2 j => erPairStep env P p i j st2) st).mNodes = st.mNodes ∧
       (l.foldl (fun st2 j => erPairStep env P p i j st2) st).mEngine.stream
          = st.mEngine.stream ∧
       (l.foldl (fun st2 j => erPairStep env P p i j st2) st).mEdges = st.mEdges) := by
  intro l
  induction l with
  | nil => intro st h; simp
  | cons a l ih =>
    intro st h
    have hstream := erPairStep_stream env P p i a st
    have h2 : (erPairStep env P p i a st).mEngine.InRange :=
      inRange_of_stream_eq hstream h
    obtain ⟨n1, n2, n3⟩ := ih (erPairStep env P p i a st) h2
    have hedges : (erPairStep env P p i a st).mEdges = st.mEdges := by
      rcases hbg : bernoulli p st.mEngine with ⟨b, g1⟩
      have hb : b = false := by
        have h3 := bernoulli_false h hp
        rw [hbg] at h3
        exact h3
      subst hb
      simp [erPairStep, hbg]
    refine ⟨?_, ?_, ?_⟩
    · simp only [List.foldl_cons]
      rw [n1, erPairStep_mNodes]
    · simp only [List.foldl_cons]
      rw [n2, hstream]
    · simp only [List.foldl_cons]
      rw [n3, hedges]

theorem erInner_sub (env : Env) (P : Params) (p : ℚ) (i : ℕ) :
    ∀ (l : List ℕ) (st : GraphState),
      ((l.foldl (fun st2 j => erPairStep env P p i j st2) st).mNodes = st.mNodes ∧
       (l.foldl (fun st2 j => erPairStep env P p i j st2) st).mEngine.stream
          = st.mEngine.stream ∧
       ∀ e ∈ (l.foldl (fun st2 j => erPairStep env P p i j st2) st).mEdges,
         e ∈ st.mEdges ∨ (e.mHead = i ∧ e.mTail ∈ l)) := by
  intro l
  induction l with
  | nil => intro st; simp
  | cons a l ih =>
    intro st
    obtain ⟨n1, n2, n3⟩ := ih (erPairStep env P p i a st)
    refine ⟨?_, ?_, ?_⟩
    · simp only [List.foldl_cons]
      rw [n1, erPairStep_mNodes]
    · simp only [List.foldl_cons]
      rw [n2, erPairStep_stream]
    · intro e he
      simp only [List.foldl_cons] at he
      rcases n3 e he with h1 | ⟨h1, h2⟩
      · rcases erPairStep_edges_sub env P p i a st e h1 with h3 | h3
        · exact Or.inl h3
        · refine Or.inr ⟨?_, ?_⟩
          · exact congrArg Prod.fst h3
          · have := congrArg Prod.snd h3
            simp only [edgePair] at this
            simp [this]
      · exact Or.inr ⟨h1, by simp [h2]⟩

theorem pushLoop_spec (env : Env) (rM rS : ℚ) :
    ∀ (l : List ℕ) (st : GraphState),
      ((l.foldl (fun st2 _ => pushNode env rM rS st2) st).mNodes.length
          = st.mNodes.length + l.length ∧
       (l.foldl (fun st2 _ => pushNode env rM rS st2) st).mEdges = st.mEdges ∧
       (l.foldl (fun st2 _ => pushNode env rM rS st2) st).mEngine.stream
          = st.mEngine.stream) := by
  intro l
  induction l with
  | nil => intro st; simp
  | cons a l ih =>
    intro st
    obtain ⟨n1, n2, n3⟩ := ih (pushNode env rM rS st)
    rcases hg : generateNode env rM rS st.mEngine with ⟨nd, g1⟩
    have hg1 : g1.stream = st.mEngine.stream := by
      have h := generateNode_stream env rM rS st.mEngine
      rw [hg] at h
      exact h
    refine ⟨?_, ?_, ?_⟩
    · simp only [List.foldl_cons]
      rw [n1]
      simp [pushNode, hg]
      omega
    · simp only [List.foldl_cons]
      rw [n2]
      simp [pushNode, hg]
    · simp only [List.foldl_cons]
      rw [n3]
      simp [pushNode, hg, hg1]

theorem erOuter_pairs (env : Env) (P : Params) {p : ℚ} (hp : 1 ≤ p) :
    ∀ (L : List ℕ) (st : GraphState), st.mEngine.InRange →
      ((L.foldl (fun st1 i =>
          (List.range i).foldl (fun st2 j => erPairStep env P p i j st2) st1) st).mNodes
            = st.mNodes ∧
       (L.foldl (fun st1 i =>
          (List.range i).foldl (fun st2 j => erPairStep env P p i j st2) st1) st).mEngine.stream
            = st.mEngine.stream ∧
       (L.foldl (fun st1 i =>
          (List.range i).foldl (fun st2 j => erPairStep env P p i j st2) st1) st).mEdges.map
            edgePair
            = st.mEdges.map edgePair ++
              L.flatMap (fun i => (List.range i).map (fun j => (i, j)))) := by
  intro L
  induction L with
  | nil => intro st h; simp
  | cons a L ih =>
    intro st h
    obtain ⟨m1, m2, m3⟩ := erInner_pairs env P hp a (List.range a) st h
    have h2 : ((List.range a).foldl (fun st2 j => erPairStep env P p a j st2) st).mEngine.InRange :=
      inRange_of_stream_eq m2 h
    obtain ⟨n1, n2, n3⟩ := ih _ h2
    refine ⟨?_, ?_, ?_⟩
    · simp only [List.foldl_cons]
      rw [n1, m1]
    · simp only [List.foldl_cons]
      rw [n2, m2]
    · simp only [List.foldl_cons]
      rw [n3, m3]
      simp

theorem erOuter_zero (env : Env) (P : Params) {p : ℚ} (hp : p ≤ 0) :
    ∀ (L : List ℕ) (st : GraphState), st.mEngine.InRange →
      ((L.foldl (fun st1 i =>
          (List.range i).foldl (fun st2 j => erPairStep env P p i j st2) st1) st).mNodes
            = st.mNodes ∧
       (L.foldl (fun st1 i =>
          (List.range i).foldl (fun st2 j => erPairStep env P p i j st2) st1) st).mEngine.stream
            = st.mEngine.stream ∧
       (L.foldl (fun st1 i =>
          (List.range i).foldl (fun st2 j => erPairStep env P p i j st2) st1) st).mEdges
            = st.mEdges) := by
  intro L
  induction L with
  | nil => intro st h; simp
  | cons a L ih =>
    intro st h
    obtain ⟨m1, m2, m3⟩ := erInner_pairs_zero env P hp a (List.range a) st h
    have h2 : ((List.range a).foldl (fun st2 j => erPairStep env P p a j st2) st).mEngine.InRange :=
      inRange_of_stream_eq m2 h
    obtain ⟨n1, n2, n3⟩ := ih _ h2
    refine ⟨?_, ?_, ?_⟩
    · simp only [List.foldl_cons]
      rw [n1, m1]
    · simp only [List.foldl_cons]
      rw [n2, m2]
    · simp only [List.foldl_cons]
      rw [n3, m3]

theorem erOuter_sub (env : Env) (P : Params) (p : ℚ) :
    ∀ (L : List ℕ) (st : GraphState),
      ((L.foldl (fun st1 i =>
          (List.range i).foldl (fun st2 j => erPairStep env P p i j st2) st1) st).mNodes
            = st.mNodes ∧
       ∀ e ∈ (L.foldl (fun st1 i =>
          (List.range i).foldl (fun st2 j => erPairStep env P p i j st2) st1) st).mEdges,
         e ∈ st.mEdges ∨ (e.mHead ∈ L ∧ e.mTail < e.mHead)) := by
  intro L
  induction L with
  | nil => intro st; simp
  | cons a L ih =>
    intro st
    obtain ⟨m1, _, m3⟩ := erInner_sub env P p a (List.range a) st
    obtain ⟨n1, n3⟩ := ih ((List.range a).foldl (fun st2 j => erPairStep env P p a j st2) st)
    refine ⟨?_, ?_⟩
    · simp only [List.foldl_cons]
      rw [n1, m1]
    · intro e he
      simp only [List.foldl_cons] at he
      rcases n3 e he with h1 | ⟨h1, h2⟩
      · rcases m3 e h1 with h3 | ⟨h3, h4⟩
        · exact Or.inl h3
        · refine Or.inr ⟨by simp [h3], ?_⟩
          rw [h3]
          exact List.mem_range.1 h4
      · exact Or.inr ⟨by simp [h1], h2⟩

theorem generateErdosRenyi_one (env : Env) (P : Params) {p : ℚ} (hp : 1 ≤ p)
    (n : ℕ) (rM rS : ℚ) (s : GraphState) (h : s.mEngine.InRange) :
    (generateErdosRenyi env P n rM rS p s).mNodes.length = n ∧
    (generateErdosRenyi env P n rM rS p s).mEdges.map edgePair = allPairs n ∧
    (generateErdosRenyi env P n rM rS p s).mEngine.stream = s.mEngine.stream := by
  simp only [generateErdosRenyi]
  obtain ⟨p1, p2, p3⟩ := pushLoop_spec env rM rS (List.range n) { s with mNodes := [] }
  set s2 := (List.range n).foldl
    (fun st _ => pushNode env rM rS st) { s with mNodes := [] } with hs2
  have h3 : ({ s2 with mEdges := [] } : GraphState).mEngine.InRange := by
    exact inRange_of_stream_eq p3 h
  obtain ⟨q1, q2, q3⟩ := erOuter_pairs env P hp (List.range n) { s2 with mEdges := [] } h3
  refine ⟨?_, ?_, ?_⟩
  · rw [q1]
    simpa using p1
  · rw [q3]
    simp [allPairs]
  · rw [q2]
    simpa using p3

theorem generateErdosRenyi_zero (env : Env) (P : Params) {p : ℚ} (hp : p ≤ 0)
    (n : ℕ) (rM rS : ℚ) (s : GraphState) (h : s.mEngine.InRange) :
    (generateErdosRenyi env P n rM rS p s).mNodes.length = n ∧
    (generateErdosRenyi env P n rM rS p s).mEdges = [] ∧
    (generateErdosRenyi env P n rM rS p s).mEngine.stream = s.mEngine.stream := by
  simp only [generateErdosRenyi]
  obtain ⟨p1, p2, p3⟩ := pushLoop_spec env rM rS (List.range n) { s with mNodes := [] }
  set s2 := (List.range n).foldl
    (fun st _ => pushNode env rM rS st) { s with mNodes := [] } with hs2
  have h3 : ({ s2 with mEdges := [] } : GraphState).mEngine.InRange := by
    exact inRange_of_stream_eq p3 h
  obtain ⟨q1, q2, q3⟩ := erOuter_zero env P hp (List.range n) { s2 with mEdges := [] } h3
  refine ⟨?_, ?_, ?_⟩
  · rw [q1]
    simpa using p1
  · rw [q3]
  · rw [q2]
    simpa using p3

theorem generateErdosRenyi_valid (env : Env) (P : Params) (p : ℚ)
    (n : ℕ) (rM rS : ℚ) (s : GraphState) :
    (generateErdosRenyi env P n rM rS p s).mNodes.length = n ∧
    ∀ e ∈ (generateErdosRenyi env P n rM rS p s).mEdges,
      e.mTail < e.mHead ∧ e.mHead < n := by
  simp only [generateErdosRenyi]
  obtain ⟨p1, p2, p3⟩ := pushLoop_spec env rM rS (List.range n) { s with mNodes := [] }
  set s2 := (List.range n).foldl
    (fun st _ => pushNode env rM rS st) { s with mNodes := [] } with hs2
  obtain ⟨q1, q3⟩ := erOuter_sub env P p (List.range n) { s2 with mEdges := [] }
  refine ⟨?_, ?_⟩
  · rw [q1]
    simpa using p1
  · intro e he
    rcases q3 e he with h1 | ⟨h1, h2⟩
    · simp at h1
    · exact ⟨h2, List.mem_range.1 h1⟩

theorem allPairs_length_two : ∀ n : ℕ, 2 * (allPairs n).length = n * (n - 1) := by
  intro n
  induction n with
  | zero => simp [allPairs]
  | succ m ih =>
    have hstep : allPairs (m + 1) = allPairs m ++ (List.range m).map (fun j => (m, j)) := by
      simp [allPairs, List.range_succ]
    rw [hstep, List.length_append, List.length_map, List.length_range]
    cases m with
    | zero => simp [allPairs]
    | succ k =>
      simp only [Nat.add_sub_cancel] at ih ⊢
      ring_nf at ih ⊢
      linarith

/-! ### `generateWattsStrogatz` rebuilds the node list unconditionally. -/

theorem wsEdgeLoop_mNodes (env : Env) (P : Params) (numNodes i : ℕ) (rp : ℚ)
    (norms : List (ℚ × ℕ)) :
    ∀ (count j : ℕ) (s : GraphState),
      (wsEdgeLoop env P numNodes i rp norms j count s).state.mNodes = s.mNodes := by
  intro count
  induction count with
  | zero => intro j s; rfl
  | succ c ih =>
    intro j s
    rcases h1 : uniformReal P.edgeWeightMin P.edgeWeightMax s.mEngine with ⟨w, g1⟩
    rcases h2 : bernoulli rp g1 with ⟨b, g2⟩
    cases b with
    | true =>
      rcases h3 : uniformIntBelow numNodes g2 with ⟨k, g3⟩
      simp [wsEdgeLoop, h1, h2, h3, ih]
    | false =>
      by_cases hj : j < norms.length
      · simp [wsEdgeLoop, h1, h2, hj, ih]
      · simp [wsEdgeLoop, h1, h2, hj, GenResult.state]

theorem wsNodeLoop_mNodes (env : Env) (P : Params) (numNodes numNeighbors : ℕ)
    (rp : ℚ) :
    ∀ (count i : ℕ) (s : GraphState),
      (wsNodeLoop env P numNodes numNeighbors rp i count s).state.mNodes = s.mNodes := by
  intro count
  induction count with
  | zero => intro i s; rfl
  | succ c ih =>
    intro i s
    have h := wsEdgeLoop_mNodes env P numNodes i rp (wsNorms env numNodes s.mNodes i)
      numNeighbors 0 s
    cases hE : wsEdgeLoop env P numNodes i rp (wsNorms env numNodes s.mNodes i)
        0 numNeighbors s with
    | ok s1 =>
      rw [hE] at h
      simp only [GenResult.state] at h
      simp only [wsNodeLoop, hE]
      rw [ih]
      exact h
    | err e s1 =>
      rw [hE] at h
      simp only [GenResult.state] at h
      simp only [wsNodeLoop, hE, GenResult.state]
      exact h

/-! ### Claims C1, C2, C3, C5. -/

/-- C1: the claim states that `generateWattsStrogatz` with `rewireProb = 0`
connects every node `i` to its `numNeighbors` nearest other nodes, the sorted
entry `j = i` being excluded so that no non-rewired edge is a self-loop. The
code instead takes the first `numNeighbors` sorted entries without skipping
`i` itself: on two nodes at distinct positions (`(0,0,0)` and `(1,1,1)`) with
`numNeighbors = 1` and `rewireProb = 0`, the emitted edge list is
`[(0, 0), (1, 1)]` — every edge a self-loop, not an edge to the nearest other
node. -/
theorem claim1_ws_first_sorted_entry_is_self :
    (generateWattsStrogatz env0 P0 2 0 2 1 0 s0).isOk = true ∧
    (generateWattsStrogatz env0 P0 2 0 2 1 0 s0).state.mEdges.map edgePair
      = [(0, 0), (1, 1)] := by
  with_unfolding_all decide

/-- C2: the claim states that out-of-domain inputs fail fast with
`InvalidParameter`. The code contains no parameter check: Watts–Strogatz with
`numNeighbors = numNodes = 1` succeeds and emits a self-loop; Erdős–Rényi
with `edgeProb = 2 ∉ [0,1]` proceeds and emits every pair; Barabási–Albert
with `numEdgesPerNode = 2 > numNodes = 1` succeeds, leaving two seed nodes. -/
theorem claim2_no_invalid_parameter_check :
    ((generateWattsStrogatz env0 P0 1 0 2 1 0 s0).errCode = none ∧
     (generateWattsStrogatz env0 P0 1 0 2 1 0 s0).state.mEdges.map edgePair
       = [(0, 0)]) ∧
    (generateErdosRenyi env0 P0 2 0 2 2 s0).mEdges.map edgePair = [(1, 0)] ∧
    ((generateBarabasiAlbert env0 P0 1 0 2 2 s0).errCode = none ∧
     (generateBarabasiAlbert env0 P0 1 0 2 2 s0).state.mNodes.length = 2) := by
  with_unfolding_all decide

/-- C3 (counterexample): a failing generation call after which the previous
valid model is NOT retained. From the valid two-node one-edge model `sPrev`,
`generateWattsStrogatz` with `numNodes = 1 < numNeighbors = 2` aborts out of
bounds, and the observable state has one freshly generated node and one
already-emitted edge — neither a full success nor the previous model. -/
theorem claim3_failed_call_leaves_partial_model :
    (generateWattsStrogatz env0 P0 1 0 2 2 0 sPrev).errCode
      = some GenError.outOfBounds ∧
    sPrev.mNodes.length = 2 ∧ sPrev.mEdges.map edgePair = [(1, 0)] ∧
    (generateWattsStrogatz env0 P0 1 0 2 2 0 sPrev).state.mNodes.length = 1 ∧
    (generateWattsStrogatz env0 P0 1 0 2 2 0 sPrev).state.mEdges.map edgePair
      = [(0, 0)] := by
  with_unfolding_all decide

/-- C3 (amended): generation is not atomic — the node list is cleared and
rebuilt before any failure can occur, so after every `generateWattsStrogatz`
call, successful or aborted, the observable node list is the freshly
generated one of length `numNodes` (and the edge list holds exactly the edges
emitted before the abort), not the previously valid model. -/
theorem claim3_generation_rebuilds_in_place (env : Env) (P : Params)
    (numNodes : ℕ) (rM rS : ℚ) (numNeighbors : ℕ) (rp : ℚ) (s : GraphState) :
    (generateWattsStrogatz env P numNodes rM rS numNeighbors rp s).state.mNodes.length
      = numNodes := by
  simp only [generateWattsStrogatz]
  obtain ⟨p1, p2, p3⟩ := pushLoop_spec env rM rS (List.range numNodes)
    { s with mNodes := [] }
  set s2 := (List.range numNodes).foldl
    (fun st _ => pushNode env rM rS st) { s with mNodes := [] } with hs2
  rw [wsNodeLoop_mNodes]
  simpa using p1

/-- C5: Erdős–Rényi with `edgeProb = 0` emits no edge; with `edgeProb = 1`
it emits exactly one edge per pair `(i, j)` with `j < i` (in loop order), and
the edge count is `n * (n - 1) / 2`. -/
theorem claim5_er_edge_counts (env : Env) (P : Params) (n : ℕ) (rM rS : ℚ)
    (s : GraphState) (h : s.mEngine.InRange) :
    (generateErdosRenyi env P n rM rS 0 s).mEdges = [] ∧
    (generateErdosRenyi env P n rM rS 1 s).mEdges.map edgePair = allPairs n ∧
    (generateErdosRenyi env P n rM rS 1 s).mEdges.length = n * (n - 1) / 2 := by
  refine ⟨(generateErdosRenyi_zero env P le_rfl n rM rS s h).2.1, ?_, ?_⟩
  · exact (generateErdosRenyi_one env P le_rfl n rM rS s h).2.1
  · have h2 := (generateErdosRenyi_one env P le_rfl n rM rS s h).2.1
    have h3 : (generateErdosRenyi env P n rM rS 1 s).mEdges.length
        = (allPairs n).length := by
      rw [← h2, List.length_map]
    have h4 := allPairs_length_two n
    omega

/-- Witness for C5 at `n = 3` with the concrete engine `rng0`. -/
theorem claim5_er_edge_counts_witness :
    (generateErdosRenyi env0 P0 3 0 2 0 s0).mEdges = [] ∧
    (generateErdosRenyi env0 P0 3 0 2 1 s0).mEdges.map edgePair = allPairs 3 ∧
    (generateErdosRenyi env0 P0 3 0 2 1 s0).mEdges.length = 3 * (3 - 1) / 2 :=
  claim5_er_edge_counts env0 P0 3 0 2 s0 (by
    intro n
    simp only [s0, rng0]
    split <;> norm_num)

/-! ### Degree sequences of `generateBarabasiAlbert`. -/

theorem bumpAt_length (l : List ℕ) (k : ℕ) : (bumpAt l k).length = l.length := by
  simp [bumpAt]

theorem bumpAt_sum : ∀ (l : List ℕ) (k : ℕ),
    (bumpAt l k).sum = l.sum + (if k < l.length then 1 else 0) := by
  intro l
  induction l with
  | nil => intro k; simp [bumpAt]
  | cons a l ih =>
    intro k
    cases k with
    | zero =>
      simp [bumpAt]
      omega
    | succ k =>
      have h := ih k
      simp only [bumpAt, List.set_cons_succ, List.getD_cons_succ, List.sum_cons,
        List.length_cons, Nat.add_lt_add_iff_right] at h ⊢
      rw [h]
      split <;> omega

theorem degreesFold_length : ∀ (edges : List Edge) (d : List ℕ),
    (edges.foldl (fun d e => bumpAt (bumpAt d e.mHead) e.mTail) d).length = d.length := by
  intro edges
  induction edges with
  | nil => intro d; rfl
  | cons e edges ih =>
    intro d
    simp only [List.foldl_cons]
    rw [ih, bumpAt_length, bumpAt_length]

theorem degreesFold_sum_le : ∀ (edges : List Edge) (d : List ℕ),
    d.sum ≤ (edges.foldl (fun d e => bumpAt (bumpAt d e.mHead) e.mTail) d).sum := by
  intro edges
  induction edges with
  | nil => intro d; exact le_rfl
  | cons e edges ih =>
    intro d
    simp only [List.foldl_cons]
    refine le_trans ?_ (ih _)
    rw [bumpAt_sum, bumpAt_sum]
    split <;> split <;> omega

theorem computeDegrees_length (n : ℕ) (edges : List Edge) :
    (computeDegrees n edges).length = n := by
  unfold computeDegrees
  rw [degreesFold_length]
  exact List.length_replicate n 0

theorem computeDegrees_sum_ne_zero {n : ℕ} {edges : List Edge} {e : Edge}
    (he : e ∈ edges) (hh : e.mHead < n) :
    (computeDegrees n edges).sum ≠ 0 := by
  obtain ⟨l1, l2, rfl⟩ := List.append_of_mem he
  unfold computeDegrees
  rw [List.foldl_append, List.foldl_cons]
  have hlen : (l1.foldl (fun d e => bumpAt (bumpAt d e.mHead) e.mTail)
      (List.replicate n 0)).length = n := by
    rw [degreesFold_length]
    exact List.length_replicate n 0
  have h1 : (bumpAt (l1.foldl (fun d e => bumpAt (bumpAt d e.mHead) e.mTail)
        (List.replicate n 0)) e.mHead).sum
      = (l1.foldl (fun d e => bumpAt (bumpAt d e.mHead) e.mTail)
        (List.replicate n 0)).sum + 1 := by
    rw [bumpAt_sum, hlen, if_pos hh]
  have h2 := bumpAt_sum (bumpAt (l1.foldl (fun d e => bumpAt (bumpAt d e.mHead) e.mTail)
      (List.replicate n 0)) e.mHead) e.mTail
  have h3 := degreesFold_sum_le l2 (bumpAt (bumpAt (l1.foldl
      (fun d e => bumpAt (bumpAt d e.mHead) e.mTail) (List.replicate n 0)) e.mHead) e.mTail)
  revert h2
  split <;> omega

/-! ### The attachment loop `baAttach`. -/

theorem baAttach_ok (env : Env) (P : Params) (i : ℕ) (degrees : List ℕ)
    (hne : degrees ≠ []) (hsum : degrees.sum ≠ 0) :
    ∀ (count : ℕ) (s : GraphState), s.mEngine.InRange →
      (baAttach env P i degrees count s).isOk = true ∧
      (baAttach env P i degrees count s).state.mNodes = s.mNodes ∧
      (baAttach env P i degrees count s).state.mEdges.length
        = s.mEdges.length + count ∧
      (baAttach env P i degrees count s).state.mEngine.stream = s.mEngine.stream := by
  intro count
  induction count with
  | zero =>
    intro s h
    exact ⟨rfl, rfl, rfl, rfl⟩
  | succ c ih =>
    intro s h
    obtain ⟨hd, hk, hstr⟩ := discreteDraw_spec h hne hsum
    rcases hw : uniformReal P.edgeWeightMin P.edgeWeightMax s.mEngine.next.2 with ⟨w, g2⟩
    have hg2 : g2.stream = s.mEngine.stream := by
      have hh := uniformReal_stream P.edgeWeightMin P.edgeWeightMax s.mEngine.next.2
      rw [hw] at hh
      exact hh
    simp only [baAttach, hd, hw]
    obtain ⟨o1, o2, o3, o4⟩ := ih
      (GraphState.mk s.mNodes
        (s.mEdges ++
          [Edge.mk i (pickIndex (s.mEngine.stream s.mEngine.idx * (degrees.sum : ℚ)) degrees)
            (Vec3.distance env (posAt s.mNodes i)
              (posAt s.mNodes
                (pickIndex (s.mEngine.stream s.mEngine.idx * (degrees.sum : ℚ)) degrees)))
            w]) g2)
      (inRange_of_stream_eq hg2 h)
    refine ⟨o1, by rw [o2], ?_, by rw [o4]; exact hg2⟩
    rw [o3]
    simp
    omega

theorem baAttach_sub (env : Env) (P : Params) (i : ℕ) (degrees : List ℕ)
    (hne : degrees ≠ []) :
    ∀ (count : ℕ) (s : GraphState), s.mEngine.InRange →
      (∀ e ∈ (baAttach env P i degrees count s).state.mEdges,
        e ∈ s.mEdges ∨ (e.mHead = i ∧ e.mTail < degrees.length)) ∧
      (baAttach env P i degrees count s).state.mNodes = s.mNodes ∧
      (baAttach env P i degrees count s).state.mEngine.stream = s.mEngine.stream := by
  intro count
  induction count with
  | zero =>
    intro s h
    exact ⟨fun e he => Or.inl he, rfl, rfl⟩
  | succ c ih =>
    intro s h
    by_cases hsum : degrees.sum = 0
    · have hE : degrees.isEmpty = false := by
        cases degrees with
        | nil => exact absurd rfl hne
        | cons a l => rfl
      have hderr : discreteDraw degrees s.mEngine = .error .invalidDistribution := by
        simp [discreteDraw, hE, hsum]
      simp only [baAttach, hderr]
      exact ⟨fun e he => Or.inl he, rfl, rfl⟩
    · obtain ⟨hd, hk, hstr⟩ := discreteDraw_spec h hne hsum
      rcases hw : uniformReal P.edgeWeightMin P.edgeWeightMax s.mEngine.next.2 with ⟨w, g2⟩
      have hg2 : g2.stream = s.mEngine.stream := by
        have hh := uniformReal_stream P.edgeWeightMin P.edgeWeightMax s.mEngine.next.2
        rw [hw] at hh
        exact hh
      simp only [baAttach, hd, hw]
      obtain ⟨o1, o2, o3⟩ := ih
        (GraphState.mk s.mNodes
          (s.mEdges ++
            [Edge.mk i (pickIndex (s.mEngine.stream s.mEngine.idx * (degrees.sum : ℚ)) degrees)
              (Vec3.distance env (posAt s.mNodes i)
                (posAt s.mNodes
                  (pickIndex (s.mEngine.stream s.mEngine.idx * (degrees.sum : ℚ)) degrees)))
              w]) g2)
        (inRange_of_stream_eq hg2 h)
      refine ⟨?_, by rw [o2], by rw [o3]; exact hg2⟩
      intro e he
      rcases o1 e he with h5 | h5
      · simp only [List.mem_append, List.mem_singleton] at h5
        rcases h5 with h5 | h5
        · exact Or.inl h5
        · subst h5
          exact Or.inr ⟨rfl, hk⟩
      · exact Or.inr h5

/-! ### The growth loop of `generateBarabasiAlbert`. -/

theorem baGrowLoop_spec (env : Env) (P : Params) (rM rS : ℚ) (numEdges : ℕ) :
    ∀ (count i : ℕ) (s : GraphState), s.mEngine.InRange →
      s.mNodes.length = i → s.mEdges ≠ [] →
      (∀ e ∈ s.mEdges, e.mTail < e.mHead ∧ e.mHead < i) →
      (baGrowLoop env P rM rS numEdges i count s).isOk = true ∧
      (baGrowLoop env P rM rS numEdges i count s).state.mNodes.length = i + count ∧
      (baGrowLoop env P rM rS numEdges i count s).state.mEdges.length
        = s.mEdges.length + count * numEdges ∧
      (∀ e ∈ (baGrowLoop env P rM rS numEdges i count s).state.mEdges,
        e.mTail < e.mHead ∧ e.mHead < i + count) ∧
      (baGrowLoop env P rM rS numEdges i count s).state.mEngine.stream
        = s.mEngine.stream := by
  intro count
  induction count with
  | zero =>
    intro i s h hlen hne hval
    exact ⟨rfl, by simpa using hlen, by simp [baGrowLoop, GenResult.state],
      by simpa using hval, rfl⟩
  | succ c ih =>
    intro i s h hlen hne hval
    obtain ⟨e0, he0⟩ := List.exists_mem_of_ne_nil s.mEdges hne
    have hipos : 0 < i := Nat.lt_of_le_of_lt (Nat.zero_le _) (hval e0 he0).2
    have hdeg_len : (computeDegrees s.mNodes.length s.mEdges).length = i := by
      rw [computeDegrees_length, hlen]
    have hdeg_ne : computeDegrees s.mNodes.length s.mEdges ≠ [] := by
      intro hd
      rw [hd] at hdeg_len
      simp at hdeg_len
      omega
    have hdeg_sum : (computeDegrees s.mNodes.length s.mEdges).sum ≠ 0 := by
      apply computeDegrees_sum_ne_zero he0
      rw [hlen]
      exact (hval e0 he0).2
    rcases hg : generateNode env rM rS s.mEngine with ⟨nd, g1⟩
    have hg1 : g1.stream = s.mEngine.stream := by
      have hh := generateNode_stream env rM rS s.mEngine
      rw [hg] at hh
      exact hh
    have hpush : pushNode env rM rS s = GraphState.mk (s.mNodes ++ [nd]) s.mEdges g1 := by
      simp [pushNode, hg]
    have hr1 : (GraphState.mk (s.mNodes ++ [nd]) s.mEdges g1).mEngine.InRange :=
      inRange_of_stream_eq hg1 h
    obtain ⟨a1, a2, a3, a4⟩ := baAttach_ok env P i (computeDegrees s.mNodes.length s.mEdges)
      hdeg_ne hdeg_sum numEdges (GraphState.mk (s.mNodes ++ [nd]) s.mEdges g1) hr1
    obtain ⟨b1, _, _⟩ := baAttach_sub env P i (computeDegrees s.mNodes.length s.mEdges)
      hdeg_ne numEdges (GraphState.mk (s.mNodes ++ [nd]) s.mEdges g1) hr1
    have hgrow : baGrow env P rM rS numEdges i s
        = baAttach env P i (computeDegrees s.mNodes.length s.mEdges) numEdges
            (GraphState.mk (s.mNodes ++ [nd]) s.mEdges g1) := by
      rw [baGrow, hpush]
    cases hA : baAttach env P i (computeDegrees s.mNodes.length s.mEdges) numEdges
        (GraphState.mk (s.mNodes ++ [nd]) s.mEdges g1) with
    | err e2 s2 =>
      rw [hA] at a1
      simp [GenResult.isOk] at a1
    | ok s2 =>
      rw [hA] at a1 a2 a3 a4 b1
      simp only [GenResult.state] at a2 a3 a4 b1
      have hs2_len : s2.mNodes.length = i + 1 := by
        rw [a2]
        simp [hlen]
      have hs2_edges_len : s2.mEdges.length = s.mEdges.length + numEdges := by
        simpa using a3
      have hs2_ne : s2.mEdges ≠ [] := by
        apply List.ne_nil_of_length_pos
        rw [hs2_edges_len]
        have := List.length_pos.2 hne
        omega
      have hs2_val : ∀ e ∈ s2.mEdges, e.mTail < e.mHead ∧ e.mHead < i + 1 := by
        intro e he
        rcases b1 e he with h5 | ⟨h5, h6⟩
        · have h7 := hval e h5
          exact ⟨h7.1, by omega⟩
        · rw [hdeg_len] at h6
          rw [h5]
          exact ⟨h6, by omega⟩
      have hs2_rng : s2.mEngine.InRange := inRange_of_stream_eq (by rw [a4]; exact hg1) h
      obtain ⟨c1, c2, c3, c4, c5⟩ := ih (i + 1) s2 hs2_rng hs2_len hs2_ne hs2_val
      have hloop : baGrowLoop env P rM rS numEdges i (c + 1) s
          = baGrowLoop env P rM rS numEdges (i + 1) c s2 := by
        simp only [baGrowLoop, hgrow, hA]
      rw [hloop]
      refine ⟨c1, by rw [c2]; omega, ?_, ?_, ?_⟩
      · rw [c3, hs2_edges_len, Nat.succ_mul]
        omega
      · intro e he
        have h5 := c4 e he
        exact ⟨h5.1, by omega⟩
      · rw [c5, a4]
        exact hg1

theorem generateBarabasiAlbert_spec (env : Env) (P : Params) {n m : ℕ}
    (h2 : 2 ≤ m) (hmn : m ≤ n) (rM rS : ℚ) (s : GraphState) (h : s.mEngine.InRange) :
    (generateBarabasiAlbert env P n rM rS m s).isOk = true ∧
    (generateBarabasiAlbert env P n rM rS m s).state.mNodes.length = n ∧
    (generateBarabasiAlbert env P n rM rS m s).state.mEdges.length
      = m * (m - 1) / 2 + (n - m) * m ∧
    (∀ e ∈ (generateBarabasiAlbert env P n rM rS m s).state.mEdges,
      e.mTail < e.mHead ∧ e.mHead < n) := by
  obtain ⟨sn, sp, sstr⟩ := generateErdosRenyi_one env P (le_refl (1 : ℚ)) m rM rS s h
  obtain ⟨_, sval⟩ := generateErdosRenyi_valid env P 1 m rM rS s
  have hlen2 : 2 * (generateErdosRenyi env P m rM rS 1 s).mEdges.length
      = m * (m - 1) := by
    have hl : (generateErdosRenyi env P m rM rS 1 s).mEdges.length
        = (allPairs m).length := by
      rw [← sp, List.length_map]
    rw [hl]
    exact allPairs_length_two m
  have hmm : 2 ≤ m * (m - 1) := by
    calc 2 = 2 * 1 := by omega
    _ ≤ m * (m - 1) := Nat.mul_le_mul h2 (by omega)
  have hseedlen : (generateErdosRenyi env P m rM rS 1 s).mEdges.length
      = m * (m - 1) / 2 := by omega
  have hne : (generateErdosRenyi env P m rM rS 1 s).mEdges ≠ [] := by
    apply List.ne_nil_of_length_pos
    omega
  have hrng : (generateErdosRenyi env P m rM rS 1 s).mEngine.InRange :=
    inRange_of_stream_eq sstr h
  obtain ⟨g1, g2, g3, g4, g5⟩ := baGrowLoop_spec env P rM rS m (n - m) m
    (generateErdosRenyi env P m rM rS 1 s) hrng sn hne sval
  have hun : generateBarabasiAlbert env P n rM rS m s
      = baGrowLoop env P rM rS m m (n - m) (generateErdosRenyi env P m rM rS 1 s) := by
    simp only [generateBarabasiAlbert]
  rw [hun]
  refine ⟨g1, by rw [g2]; omega, by rw [g3, hseedlen], ?_⟩
  intro e he
  have h5 := g4 e he
  exact ⟨h5.1, by omega⟩

/-! ### Claims C4, C6, C10. -/

/-- C4 (counterexample): the claim asserts that whenever
`numEdgesPerNode ≤ numNodes` every degree-weighted draw sees a positive total
degree. With `numEdgesPerNode = 1 ≤ numNodes = 2` the seed graph is a single
node with no edges, so the first draw sees the all-zero weight vector `[0]`
and the generation aborts with `InvalidDistribution`: the failure case is
reachable. -/
theorem claim4_degree_draw_degenerate_cex :
    (generateBarabasiAlbert env0 P0 2 0 2 1 s0).errCode
      = some GenError.invalidDistribution := by
  with_unfolding_all decide

/-- C4 (amended): for every call with `2 ≤ numEdgesPerNode ≤ numNodes`, at
every degree-weighted draw of the growth phase at least one existing node
has positive degree (the complete seed graph provides positive total degree
and degrees only grow), so the `InvalidDistribution` failure of the
discrete-weighted draw is unreachable and generation succeeds. -/
theorem claim4_degree_draw_never_degenerate (env : Env) (P : Params) {n m : ℕ}
    (h2 : 2 ≤ m) (hmn : m ≤ n) (rM rS : ℚ) (s : GraphState) (h : s.mEngine.InRange) :
    (generateBarabasiAlbert env P n rM rS m s).errCode
      ≠ some GenError.invalidDistribution := by
  have h1 := (generateBarabasiAlbert_spec env P h2 hmn rM rS s h).1
  cases hA : generateBarabasiAlbert env P n rM rS m s with
  | ok s1 => simp [GenResult.errCode]
  | err e s1 =>
    rw [hA] at h1
    simp [GenResult.isOk] at h1

/-- Witness for C4 (amended) at `numNodes = 3`, `numEdgesPerNode = 2`. -/
theorem claim4_degree_draw_never_degenerate_witness :
    2 ≤ 2 ∧ 2 ≤ 3 ∧
    (generateBarabasiAlbert env0 P0 3 0 2 2 s0).errCode
      ≠ some GenError.invalidDistribution :=
  ⟨by decide, by decide,
    claim4_degree_draw_never_degenerate env0 P0 (by decide) (by decide) 0 2 s0 (by
      intro k
      simp only [s0, rng0]
      split <;> norm_num)⟩

/-- C6 (counterexample): the claim asserts the exact final edge count for
every `numEdgesPerNode ≤ numNodes`. With `numEdgesPerNode = 1 ≤ numNodes = 3`
the generation aborts with `InvalidDistribution` before any growth edge is
emitted, leaving 0 edges instead of the claimed
`1*(1-1)/2 + (3-1)*1 = 2`. -/
theorem claim6_ba_edge_count_cex :
    (generateBarabasiAlbert env0 P0 3 0 2 1 s0).errCode
        = some GenError.invalidDistribution ∧
    (generateBarabasiAlbert env0 P0 3 0 2 1 s0).state.mEdges.length = 0 ∧
    1 * (1 - 1) / 2 + (3 - 1) * 1 = 2 := by
  with_unfolding_all decide

/-- C6 (amended): for every call with `2 ≤ numEdgesPerNode ≤ numNodes`,
generation succeeds and the final edge count is exactly
`seedEdges + (numNodes - numEdgesPerNode) * numEdgesPerNode` with
`seedEdges = numEdgesPerNode * (numEdgesPerNode - 1) / 2`, the count of the
`edgeProb = 1` Erdős–Rényi seed over `numEdgesPerNode` nodes. -/
theorem claim6_ba_edge_count (env : Env) (P : Params) {n m : ℕ}
    (h2 : 2 ≤ m) (hmn : m ≤ n) (rM rS : ℚ) (s : GraphState) (h : s.mEngine.InRange) :
    (generateBarabasiAlbert env P n rM rS m s).isOk = true ∧
    (generateBarabasiAlbert env P n rM rS m s).state.mEdges.length
      = m * (m - 1) / 2 + (n - m) * m := by
  obtain ⟨h1, _, h3, _⟩ := generateBarabasiAlbert_spec env P h2 hmn rM rS s h
  exact ⟨h1, h3⟩

/-- Witness for C6 (amended) at `numNodes = 3`, `numEdgesPerNode = 2`:
one seed edge plus two growth edges. -/
theorem claim6_ba_edge_count_witness :
    (generateBarabasiAlbert env0 P0 3 0 2 2 s0).isOk = true ∧
    (generateBarabasiAlbert env0 P0 3 0 2 2 s0).state.mEdges.length
      = 2 * (2 - 1) / 2 + (3 - 2) * 2 :=
  claim6_ba_edge_count env0 P0 (by decide) (by decide) 0 2 s0 (by
    intro k
    simp only [s0, rng0]
    split <;> norm_num)

/-- C10: every edge emitted by the Barabási–Albert attachment loop for the
new node `i` — the degree vector ranging exactly over the `i` nodes that
existed before `i` was appended — has head `i` and tail a previously created
node `k < i` (so no growth edge is a self-loop); edges already present are
untouched. -/
theorem claim10_growth_edges_attach_downward (env : Env) (P : Params) (i : ℕ)
    (degrees : List ℕ) (hlen : degrees.length = i) (hpos : 0 < i)
    (count : ℕ) (s : GraphState) (h : s.mEngine.InRange) :
    ∀ e ∈ (baAttach env P i degrees count s).state.mEdges,
      e ∈ s.mEdges ∨ (e.mHead = i ∧ e.mTail < i) := by
  have hne : degrees ≠ [] := by
    intro hd
    rw [hd] at hlen
    simp at hlen
    omega
  have h1 := (baAttach_sub env P i degrees hne count s h).1
  rw [hlen] at h1
  exact h1

/-- Witness for C10 at `i = 1`, one existing node of degree `1`, one draw. -/
theorem claim10_growth_edges_attach_downward_witness :
    ([1] : List ℕ).length = 1 ∧ 0 < 1 ∧
    ∀ e ∈ (baAttach env0 P0 1 [1] 1 s0).state.mEdges,
      e ∈ s0.mEdges ∨ (e.mHead = 1 ∧ e.mTail < 1) :=
  ⟨rfl, by decide,
    claim10_growth_edges_attach_downward env0 P0 1 [1] rfl (by decide) 1 s0 (by
      intro k
      simp only [s0, rng0]
      split <;> norm_num)⟩

/-! ### Validity of the edges emitted by `generateWattsStrogatz`. -/

theorem wsNorms_length (env : Env) (numNodes : ℕ) (nodes : List Node) (i : ℕ) :
    (wsNorms env numNodes nodes i).length = numNodes := by
  unfold wsNorms
  rw [List.length_insertionSort, List.length_map, List.length_range]

theorem wsNorms_snd_lt (env : Env) (numNodes : ℕ) (nodes : List Node) (i : ℕ) :
    ∀ pr ∈ wsNorms env numNodes nodes i, pr.2 < numNodes := by
  intro pr hpr
  unfold wsNorms at hpr
  rw [List.mem_insertionSort] at hpr
  obtain ⟨j, hj, hpr2⟩ := List.mem_map.1 hpr
  rw [← hpr2]
  exact List.mem_range.1 hj

theorem wsEdgeLoop_spec (env : Env) (P : Params) (numNodes i : ℕ) (rp : ℚ)
    (norms : List (ℚ × ℕ)) (hn : 1 ≤ numNodes)
    (hsnd : ∀ pr ∈ norms, pr.2 < numNodes) :
    ∀ (count j : ℕ) (s : GraphState), s.mEngine.InRange →
      j + count ≤ norms.length →
      (wsEdgeLoop env P numNodes i rp norms j count s).isOk = true ∧
      (wsEdgeLoop env P numNodes i rp norms j count s).state.mEngine.stream
        = s.mEngine.stream ∧
      (∀ e ∈ (wsEdgeLoop env P numNodes i rp norms j count s).state.mEdges,
        e ∈ s.mEdges ∨ (e.mHead = i ∧ e.mTail < numNodes)) := by
  intro count
  induction count with
  | zero =>
    intro j s h hcount
    exact ⟨rfl, rfl, fun e he => Or.inl he⟩
  | succ c ih =>
    intro j s h hcount
    rcases h1 : uniformReal P.edgeWeightMin P.edgeWeightMax s.mEngine with ⟨w, g1⟩
    have hg1 : g1.stream = s.mEngine.stream := by
      have hh := uniformReal_stream P.edgeWeightMin P.edgeWeightMax s.mEngine
      rw [h1] at hh
      exact hh
    rcases h2 : bernoulli rp g1 with ⟨b, g2⟩
    have hg2 : g2.stream = s.mEngine.stream := by
      have hh := bernoulli_stream rp g1
      rw [h2] at hh
      rw [hh, hg1]
    have hrng2 : g2.InRange := inRange_of_stream_eq hg2 h
    cases b with
    | true =>
      rcases h3 : uniformIntBelow numNodes g2 with ⟨k, g3⟩
      have hg3 : g3.stream = s.mEngine.stream := by
        have hh := uniformIntBelow_stream numNodes g2
        rw [h3] at hh
        rw [hh, hg2]
      have hk : k < numNodes := by
        have hh := uniformIntBelow_lt hrng2 hn
        rw [h3] at hh
        exact hh
      have hstep : wsEdgeLoop env P numNodes i rp norms j (c + 1) s
          = wsEdgeLoop env P numNodes i rp norms (j + 1) c
              (GraphState.mk s.mNodes
                (s.mEdges ++
                  [Edge.mk i k (Vec3.distance env (posAt s.mNodes i) (posAt s.mNodes k)) w])
                g3) := by
        simp [wsEdgeLoop, h1, h2, h3]
      rw [hstep]
      obtain ⟨o1, o2, o3⟩ := ih (j + 1)
        (GraphState.mk s.mNodes
          (s.mEdges ++
            [Edge.mk i k (Vec3.distance env (posAt s.mNodes i) (posAt s.mNodes k)) w])
          g3)
        (inRange_of_stream_eq hg3 h) (by omega)
      refine ⟨o1, by rw [o2]; exact hg3, ?_⟩
      intro e he
      rcases o3 e he with h5 | h5
      · simp only [List.mem_append, List.mem_singleton] at h5
        rcases h5 with h5 | h5
        · exact Or.inl h5
        · subst h5
          exact Or.inr ⟨rfl, hk⟩
      · exact Or.inr h5
    | false =>
      have hj : j < norms.length := by omega
      have htail : (norms.get ⟨j, hj⟩).2 < numNodes :=
        hsnd (norms.get ⟨j, hj⟩) (List.get_mem norms j hj)
      have hstep : wsEdgeLoop env P numNodes i rp norms j (c + 1) s
          = wsEdgeLoop env P numNodes i rp norms (j + 1) c
              (GraphState.mk s.mNodes
                (s.mEdges ++
                  [Edge.mk i (norms.get ⟨j, hj⟩).2
                    (Vec3.distance env (posAt s.mNodes i)
                      (posAt s.mNodes (norms.get ⟨j, hj⟩).2)) w])
                g2) := by
        simp [wsEdgeLoop, h1, h2, hj]
      rw [hstep]
      obtain ⟨o1, o2, o3⟩ := ih (j + 1)
        (GraphState.mk s.mNodes
          (s.mEdges ++
            [Edge.mk i (norms.get ⟨j, hj⟩).2
              (Vec3.distance env (posAt s.mNodes i)
                (posAt s.mNodes (norms.get ⟨j, hj⟩).2)) w])
          g2)
        (inRange_of_stream_eq hg2 h) (by omega)
      refine ⟨o1, by rw [o2]; exact hg2, ?_⟩
      intro e he
      rcases o3 e he with h5 | h5
      · simp only [List.mem_append, List.mem_singleton] at h5
        rcases h5 with h5 | h5
        · exact Or.inl h5
        · subst h5
          exact Or.inr ⟨rfl, htail⟩
      · exact Or.inr h5

theorem wsNodeLoop_spec (env : Env) (P : Params) (numNodes numNeighbors : ℕ)
    (rp : ℚ) (hn : 1 ≤ numNodes) (hnn : numNeighbors ≤ numNodes) :
    ∀ (count i : ℕ) (s : GraphState), s.mEngine.InRange →
      (wsNodeLoop env P numNodes numNeighbors rp i count s).isOk = true ∧
      (wsNodeLoop env P numNodes numNeighbors rp i count s).state.mEngine.stream
        = s.mEngine.stream ∧
      (∀ e ∈ (wsNodeLoop env P numNodes numNeighbors rp i count s).state.mEdges,
        e ∈ s.mEdges ∨ (e.mHead < i + count ∧ e.mTail < numNodes)) := by
  intro count
  induction count with
  | zero =>
    intro i s h
    exact ⟨rfl, rfl, fun e he => Or.inl he⟩
  | succ c ih =>
    intro i s h
    have hcount : 0 + numNeighbors ≤ (wsNorms env numNodes s.mNodes i).length := by
      rw [wsNorms_length]
      omega
    obtain ⟨e1, e2, e3⟩ := wsEdgeLoop_spec env P numNodes i rp
      (wsNorms env numNodes s.mNodes i) hn (wsNorms_snd_lt env numNodes s.mNodes i)
      numNeighbors 0 s h hcount
    cases hE : wsEdgeLoop env P numNodes i rp (wsNorms env numNodes s.mNodes i)
        0 numNeighbors s with
    | err e2x s1 =>
      rw [hE] at e1
      simp [GenResult.isOk] at e1
    | ok s1 =>
      rw [hE] at e2 e3
      simp only [GenResult.state] at e2 e3
      obtain ⟨o1, o2, o3⟩ := ih (i + 1) s1 (inRange_of_stream_eq e2 h)
      have hloop : wsNodeLoop env P numNodes numNeighbors rp i (c + 1) s
          = wsNodeLoop env P numNodes numNeighbors rp (i + 1) c s1 := by
        simp only [wsNodeLoop, hE]
      rw [hloop]
      refine ⟨o1, by rw [o2]; exact e2, ?_⟩
      intro e he
      rcases o3 e he with h5 | ⟨h5, h6⟩
      · rcases e3 e h5 with h7 | ⟨h7, h8⟩
        · exact Or.inl h7
        · exact Or.inr ⟨by omega, h8⟩
      · exact Or.inr ⟨by omega, h6⟩

theorem generateWattsStrogatz_spec (env : Env) (P : Params) {n nn : ℕ}
    (hnn : nn < n) (rM rS rp : ℚ) (s : GraphState) (h : s.mEngine.InRange) :
    (generateWattsStrogatz env P n rM rS nn rp s).isOk = true ∧
    (generateWattsStrogatz env P n rM rS nn rp s).state.mNodes.length = n ∧
    (∀ e ∈ (generateWattsStrogatz env P n rM rS nn rp s).state.mEdges,
      e.mHead < n ∧ e.mTail < n) := by
  have hn : 1 ≤ n := by omega
  have hle : nn ≤ n := by omega
  simp only [generateWattsStrogatz]
  obtain ⟨p1, p2, p3⟩ := pushLoop_spec env rM rS (List.range n) { s with mNodes := [] }
  set s2 := (List.range n).foldl
    (fun st _ => pushNode env rM rS st) { s with mNodes := [] } with hs2
  have h3 : ({ s2 with mEdges := [] } : GraphState).mEngine.InRange :=
    inRange_of_stream_eq p3 h
  obtain ⟨q1, q2, q3⟩ := wsNodeLoop_spec env P n nn rp hn hle n 0
    { s2 with mEdges := [] } h3
  refine ⟨q1, ?_, ?_⟩
  · rw [wsNodeLoop_mNodes]
    simpa using p1
  · intro e he
    rcases q3 e he with h5 | ⟨h5, h6⟩
    · simp at h5
    · exact ⟨by omega, h6⟩

/-! ### Validity of the edges held by the Barabási–Albert state, with no
assumption on the parameters: needed for the index-validity invariant. -/

theorem baAttach_valid (env : Env) (P : Params) (i : ℕ) (degrees : List ℕ) :
    ∀ (count : ℕ) (s : GraphState),
      i < s.mNodes.length → degrees.length ≤ s.mNodes.length →
      (∀ e ∈ s.mEdges, e.mHead < s.mNodes.length ∧ e.mTail < s.mNodes.length) →
      s.mEngine.InRange →
      ((baAttach env P i degrees count s).state.mNodes = s.mNodes ∧
       (baAttach env P i degrees count s).state.mEngine.stream = s.mEngine.stream ∧
       ∀ e ∈ (baAttach env P i degrees count s).state.mEdges,
         e.mHead < s.mNodes.length ∧ e.mTail < s.mNodes.length) := by
  intro count
  induction count with
  | zero =>
    intro s hi hdl hval h
    exact ⟨rfl, rfl, hval⟩
  | succ c ih =>
    intro s hi hdl hval h
    by_cases hemp : degrees = []
    · have hd : discreteDraw degrees s.mEngine = .ok (0, s.mEngine) := by
        simp [discreteDraw, hemp]
      rcases hw : uniformReal P.edgeWeightMin P.edgeWeightMax s.mEngine with ⟨w, g2⟩
      have hg2 : g2.stream = s.mEngine.stream := by
        have hh := uniformReal_stream P.edgeWeightMin P.edgeWeightMax s.mEngine
        rw [hw] at hh
        exact hh
      have hstep : baAttach env P i degrees (c + 1) s
          = baAttach env P i degrees c
              (GraphState.mk s.mNodes
                (s.mEdges ++
                  [Edge.mk i 0 (Vec3.distance env (posAt s.mNodes i) (posAt s.mNodes 0)) w])
                g2) := by
        simp [baAttach, hd, hw]
      rw [hstep]
      obtain ⟨o1, o2, o3⟩ := ih
        (GraphState.mk s.mNodes
          (s.mEdges ++
            [Edge.mk i 0 (Vec3.distance env (posAt s.mNodes i) (posAt s.mNodes 0)) w])
          g2)
        hi hdl
        (by
          intro e he
          simp only [List.mem_append, List.mem_singleton] at he
          rcases he with he | he
          · exact hval e he
          · subst he
            exact ⟨hi, Nat.lt_of_le_of_lt (Nat.zero_le i) hi⟩)
        (inRange_of_stream_eq hg2 h)
      exact ⟨o1, by rw [o2]; exact hg2, o3⟩
    · by_cases hsum : degrees.sum = 0
      · have hE : degrees.isEmpty = false := by
          cases degrees with
          | nil => exact absurd rfl hemp
          | cons a l => rfl
        have hd : discreteDraw degrees s.mEngine = .error .invalidDistribution := by
          simp [discreteDraw, hE, hsum]
        simp only [baAttach, hd]
        exact ⟨rfl, rfl, hval⟩
      · obtain ⟨hd, hk, hstr⟩ := discreteDraw_spec h hemp hsum
        rcases hw : uniformReal P.edgeWeightMin P.edgeWeightMax s.mEngine.next.2 with ⟨w, g2⟩
        have hg2 : g2.stream = s.mEngine.stream := by
          have hh := uniformReal_stream P.edgeWeightMin P.edgeWeightMax s.mEngine.next.2
          rw [hw] at hh
          exact hh
        have hstep : baAttach env P i degrees (c + 1) s
            = baAttach env P i degrees c
                (GraphState.mk s.mNodes
                  (s.mEdges ++
                    [Edge.mk i
                      (pickIndex (s.mEngine.stream s.mEngine.idx * (degrees.sum : ℚ)) degrees)
                      (Vec3.distance env (posAt s.mNodes i)
                        (posAt s.mNodes
                          (pickIndex (s.mEngine.stream s.mEngine.idx * (degrees.sum : ℚ))
                            degrees))) w])
                  g2) := by
          simp [baAttach, hd, hw]
        rw [hstep]
        obtain ⟨o1, o2, o3⟩ := ih
          (GraphState.mk s.mNodes
            (s.mEdges ++
              [Edge.mk i
                (pickIndex (s.mEngine.stream s.mEngine.idx * (degrees.sum : ℚ)) degrees)
                (Vec3.distance env (posAt s.mNodes i)
                  (posAt s.mNodes
                    (pickIndex (s.mEngine.stream s.mEngine.idx * (degrees.sum : ℚ))
                      degrees))) w])
            g2)
          hi hdl
          (by
            intro e he
            simp only [List.mem_append, List.mem_singleton] at he
            rcases he with he | he
            · exact hval e he
            · subst he
              exact ⟨hi, Nat.lt_of_lt_of_le hk hdl⟩)
          (inRange_of_stream_eq hg2 h)
        exact ⟨o1, by rw [o2]; exact hg2, o3⟩

theorem baGrowLoop_valid (env : Env) (P : Params) (rM rS : ℚ) (numEdges : ℕ) :
    ∀ (count i : ℕ) (s : GraphState), s.mEngine.InRange →
      s.mNodes.length = i →
      (∀ e ∈ s.mEdges, e.mHead < s.mNodes.length ∧ e.mTail < s.mNodes.length) →
      ∀ e ∈ (baGrowLoop env P rM rS numEdges i count s).state.mEdges,
        e.mHead < (baGrowLoop env P rM rS numEdges i count s).state.mNodes.length ∧
        e.mTail < (baGrowLoop env P rM rS numEdges i count s).state.mNodes.length := by
  intro count
  induction count with
  | zero =>
    intro i s h hlen hval
    exact hval
  | succ c ih =>
    intro i s h hlen hval
    rcases hg : generateNode env rM rS s.mEngine with ⟨nd, g1⟩
    have hg1 : g1.stream = s.mEngine.stream := by
      have hh := generateNode_stream env rM rS s.mEngine
      rw [hg] at hh
      exact hh
    have hpush : pushNode env rM rS s = GraphState.mk (s.mNodes ++ [nd]) s.mEdges g1 := by
      simp [pushNode, hg]
    have hlen1 : (GraphState.mk (s.mNodes ++ [nd]) s.mEdges g1).mNodes.length = i + 1 := by
      simp [hlen]
    obtain ⟨a1, a2, a3⟩ := baAttach_valid env P i (computeDegrees s.mNodes.length s.mEdges)
      numEdges (GraphState.mk (s.mNodes ++ [nd]) s.mEdges g1)
      (by simp [hlen])
      (by
        rw [computeDegrees_length]
        simp)
      (by
        intro e he
        have h5 := hval e he
        simp only [List.length_append, List.length_singleton]
        omega)
      (inRange_of_stream_eq hg1 h)
    have hgrow : baGrow env P rM rS numEdges i s
        = baAttach env P i (computeDegrees s.mNodes.length s.mEdges) numEdges
            (GraphState.mk (s.mNodes ++ [nd]) s.mEdges g1) := by
      rw [baGrow, hpush]
    cases hA : baAttach env P i (computeDegrees s.mNodes.length s.mEdges) numEdges
        (GraphState.mk (s.mNodes ++ [nd]) s.mEdges g1) with
    | err e2 s2 =>
      rw [hA] at a1 a2 a3
      simp only [GenResult.state] at a1 a2 a3
      have hloop : baGrowLoop env P rM rS numEdges i (c + 1) s
          = .err e2 s2 := by
        simp only [baGrowLoop, hgrow, hA]
      rw [hloop]
      simp only [GenResult.state]
      intro e he
      have h5 := a3 e he
      rw [a1]
      simpa using h5
    | ok s2 =>
      rw [hA] at a1 a2 a3
      simp only [GenResult.state] at a1 a2 a3
      have hloop : baGrowLoop env P rM rS numEdges i (c + 1) s
          = baGrowLoop env P rM rS numEdges (i + 1) c s2 := by
        simp only [baGrowLoop, hgrow, hA]
      rw [hloop]
      apply ih (i + 1) s2 (inRange_of_stream_eq (by rw [a2]; exact hg1) h)
        (by rw [a1]; simpa using hlen1)
      intro e he
      have h5 := a3 e he
      rw [a1]
      simpa using h5

/-! ### Claim C9. -/

/-- C9: for each of the three generators, run on parameters satisfying its
stated preconditions, every edge of the resulting model has head and tail
that are valid indices into the node list. For Erdős–Rényi and
Watts–Strogatz the node count is the requested `numNodes` (and the
Watts–Strogatz run succeeds); for Barabási–Albert the bound is relative to
the node list of the resulting state. -/
theorem claim9_edges_are_valid_indices (env : Env) (P : Params)
    (rM rS p rp : ℚ) (n m nn : ℕ) (s : GraphState) (h : s.mEngine.InRange)
    (hp0 : 0 ≤ p) (hp1 : p ≤ 1) (hmn : m ≤ n) (hnn : nn < n) :
    ((generateErdosRenyi env P n rM rS p s).mNodes.length = n ∧
     ∀ e ∈ (generateErdosRenyi env P n rM rS p s).mEdges,
       e.mHead < n ∧ e.mTail < n) ∧
    (∀ e ∈ (generateBarabasiAlbert env P n rM rS m s).state.mEdges,
       e.mHead < (generateBarabasiAlbert env P n rM rS m s).state.mNodes.length ∧
       e.mTail < (generateBarabasiAlbert env P n rM rS m s).state.mNodes.length) ∧
    ((generateWattsStrogatz env P n rM rS nn rp s).isOk = true ∧
     (generateWattsStrogatz env P n rM rS nn rp s).state.mNodes.length = n ∧
     ∀ e ∈ (generateWattsStrogatz env P n rM rS nn rp s).state.mEdges,
       e.mHead < n ∧ e.mTail < n) := by
  refine ⟨?_, ?_, ?_⟩
  · obtain ⟨v1, v2⟩ := generateErdosRenyi_valid env P p n rM rS s
    refine ⟨v1, ?_⟩
    intro e he
    have h5 := v2 e he
    exact ⟨h5.2, by omega⟩
  · obtain ⟨sn, sp, sstr⟩ := generateErdosRenyi_one env P (le_refl (1 : ℚ)) m rM rS s h
    obtain ⟨_, sval⟩ := generateErdosRenyi_valid env P 1 m rM rS s
    have hun : generateBarabasiAlbert env P n rM rS m s
        = baGrowLoop env P rM rS m m (n - m) (generateErdosRenyi env P m rM rS 1 s) := by
      simp only [generateBarabasiAlbert]
    rw [hun]
    apply baGrowLoop_valid env P rM rS m (n - m) m
      (generateErdosRenyi env P m rM rS 1 s) (inRange_of_stream_eq sstr h) sn
    intro e he
    have h5 := sval e he
    rw [sn]
    omega
  · obtain ⟨w1, w2, w3⟩ := generateWattsStrogatz_spec env P hnn rM rS rp s h
    exact ⟨w1, w2, w3⟩

/-- Witness for C9 at `n = 3`, `m = 2`, `nn = 1`, `p = 1`, `rp = 0`. -/
theorem claim9_edges_are_valid_indices_witness :
    (0 : ℚ) ≤ 1 ∧ (1 : ℚ) ≤ 1 ∧ 2 ≤ 3 ∧ 1 < 3 ∧
    (((generateErdosRenyi env0 P0 3 0 2 1 s0).mNodes.length = 3 ∧
      ∀ e ∈ (generateErdosRenyi env0 P0 3 0 2 1 s0).mEdges,
        e.mHead < 3 ∧ e.mTail < 3) ∧
     (∀ e ∈ (generateBarabasiAlbert env0 P0 3 0 2 2 s0).state.mEdges,
        e.mHead < (generateBarabasiAlbert env0 P0 3 0 2 2 s0).state.mNodes.length ∧
        e.mTail < (generateBarabasiAlbert env0 P0 3 0 2 2 s0).state.mNodes.length) ∧
     ((generateWattsStrogatz env0 P0 3 0 2 1 0 s0).isOk = true ∧
      (generateWattsStrogatz env0 P0 3 0 2 1 0 s0).state.mNodes.length = 3 ∧
      ∀ e ∈ (generateWattsStrogatz env0 P0 3 0 2 1 0 s0).state.mEdges,
        e.mHead < 3 ∧ e.mTail < 3)) :=
  ⟨by norm_num, by norm_num, by decide, by decide,
    claim9_edges_are_valid_indices env0 P0 0 2 1 0 3 2 1 s0 (by
        intro k
        simp only [s0, rng0]
        split <;> norm_num)
      (by norm_num) (by norm_num) (by decide) (by decide)⟩

/-! ### Vector algebra facts used by the `update` theorems. -/

theorem Vec3.zero_smul_vec (v : Vec3) : (0 : ℚ) • v = Vec3.zero := by
  show Vec3.mk (0 * v.x) (0 * v.y) (0 * v.z) = Vec3.zero
  simp [Vec3.zero]

theorem Vec3.smul_zero_vec (c : ℚ) : c • Vec3.zero = Vec3.zero := by
  show Vec3.mk (c * Vec3.zero.x) (c * Vec3.zero.y) (c * Vec3.zero.z) = Vec3.zero
  simp [Vec3.zero]

theorem Vec3.add_zero_vec (v : Vec3) : v + Vec3.zero = v := by
  show Vec3.mk (v.x + Vec3.zero.x) (v.y + Vec3.zero.y) (v.z + Vec3.zero.z) = v
  simp [Vec3.zero]

theorem Vec3.zero_add_vec (v : Vec3) : Vec3.zero + v = v := by
  show Vec3.mk (Vec3.zero.x + v.x) (Vec3.zero.y + v.y) (Vec3.zero.z + v.z) = v
  simp [Vec3.zero]

theorem Vec3.sub_self_vec (v : Vec3) : v - v = Vec3.zero := by
  show Vec3.mk (v.x - v.x) (v.y - v.y) (v.z - v.z) = Vec3.zero
  simp [Vec3.zero]

theorem Vec3.sub_zero_vec (v : Vec3) : v - Vec3.zero = v := by
  show Vec3.mk (v.x - Vec3.zero.x) (v.y - Vec3.zero.y) (v.z - Vec3.zero.z) = v
  simp [Vec3.zero]

theorem Vec3.normSq_zero : Vec3.normSq Vec3.zero = 0 := by
  simp [Vec3.normSq, Vec3.zero]

theorem getNormalized_zero (env : Env) (hsqrt : env.sqrtQ 0 = 0) :
    Vec3.getNormalized env Vec3.zero = Vec3.zero := by
  unfold Vec3.getNormalized
  rw [Vec3.normSq_zero, hsqrt]
  simp

theorem list_set_self {α : Type} : ∀ (l : List α) (k : ℕ) (d : α),
    l.set k (l.getD k d) = l := by
  intro l
  induction l with
  | nil => intro k d; rfl
  | cons a l ih =>
    intro k d
    cases k with
    | zero => rfl
    | succ k =>
      show a :: l.set k (l.getD k d) = a :: l
      rw [ih]

theorem addAccelAt_id (nodes : List Node) (k : ℕ) (f : Vec3 → Vec3)
    (hf : ∀ a, f a = a) : addAccelAt nodes k f = nodes := by
  unfold addAccelAt
  simp only [hf]
  exact list_set_self nodes k default

/-! ### Claims C7 and C8. -/

/-- C7: for an edge whose endpoints are coincident, the direction vector is
zero, `getNormalized` returns the zero vector instead of dividing by a zero
length (given that the real square root maps `0` to `0`), the stretch is the
zero vector, and the edge's spring contribution leaves every node's
acceleration unchanged: `applyEdge` is the identity on the node list. -/
theorem claim7_coincident_edge_zero_stretch (env : Env) (nodes : List Node)
    (e : Edge) (hpos : posAt nodes e.mTail = posAt nodes e.mHead)
    (hsqrt : env.sqrtQ 0 = 0) :
    edgeStretch env nodes e = Vec3.zero ∧ applyEdge env nodes e = nodes := by
  have hdir : posAt nodes e.mTail - posAt nodes e.mHead = Vec3.zero := by
    rw [hpos]
    exact Vec3.sub_self_vec _
  have hstretch : edgeStretch env nodes e = Vec3.zero := by
    simp only [edgeStretch]
    rw [hdir, getNormalized_zero env hsqrt, Vec3.smul_zero_vec, Vec3.sub_self_vec]
  refine ⟨hstretch, ?_⟩
  simp only [applyEdge]
  rw [hstretch]
  rw [addAccelAt_id _ _ _ (fun a => by rw [Vec3.smul_zero_vec, Vec3.sub_zero_vec]),
    addAccelAt_id _ _ _ (fun a => by rw [Vec3.smul_zero_vec, Vec3.add_zero_vec])]

/-- Witness for C7: a self-loop edge on a single node. -/
theorem claim7_coincident_edge_zero_stretch_witness :
    posAt [(default : Node)] (Edge.mk 0 0 1 1).mTail
      = posAt [(default : Node)] (Edge.mk 0 0 1 1).mHead ∧
    env0.sqrtQ 0 = 0 ∧
    (edgeStretch env0 [(default : Node)] (Edge.mk 0 0 1 1) = Vec3.zero ∧
     applyEdge env0 [(default : Node)] (Edge.mk 0 0 1 1) = [(default : Node)]) :=
  ⟨rfl, rfl, claim7_coincident_edge_zero_stretch env0 [(default : Node)]
    (Edge.mk 0 0 1 1) rfl rfl⟩

theorem update_zero_step (env : Env) (P : Params) (hnorm : P.perlinNoiseNorm = 0)
    (s : GraphState) (hedges : s.mEdges = [])
    (hvel : ∀ nd ∈ s.mNodes, nd.mVelocity = Vec3.zero) :
    (update env P s).mNodes
      = s.mNodes.map (fun nd => Node.mk nd.mPosition Vec3.zero Vec3.zero) ∧
    (update env P s).mEdges = s.mEdges := by
  constructor
  case right => rfl
  unfold update
  rw [hedges]
  simp only [List.foldl_nil, List.map_map]
  apply List.map_congr_left
  intro nd hnd
  have hv := hvel nd hnd
  simp only [Function.comp]
  unfold noiseStep integrateStep
  rw [hnorm, hv]
  simp only [Vec3.zero_smul_vec, Vec3.smul_zero_vec, Vec3.add_zero_vec,
    Vec3.zero_add_vec]

theorem updateN_zero_inv (env : Env) (P : Params) (hnorm : P.perlinNoiseNorm = 0) :
    ∀ (k : ℕ) (s : GraphState), s.mEdges = [] →
      (∀ nd ∈ s.mNodes, nd.mVelocity = Vec3.zero) →
      ((updateN env P k s).mNodes.map (fun nd => nd.mPosition)
          = s.mNodes.map (fun nd => nd.mPosition) ∧
       (∀ nd ∈ (updateN env P k s).mNodes, nd.mVelocity = Vec3.zero) ∧
       (updateN env P k s).mEdges = []) := by
  intro k
  induction k with
  | zero =>
    intro s hedges hvel
    exact ⟨rfl, hvel, hedges⟩
  | succ c ih =>
    intro s hedges hvel
    obtain ⟨u1, u2⟩ := update_zero_step env P hnorm s hedges hvel
    have hedges1 : (update env P s).mEdges = [] := by rw [u2, hedges]
    have hvel1 : ∀ nd ∈ (update env P s).mNodes, nd.mVelocity = Vec3.zero := by
      intro nd hnd
      rw [u1] at hnd
      obtain ⟨nd0, _, hnd2⟩ := List.mem_map.1 hnd
      rw [← hnd2]
    obtain ⟨o1, o2, o3⟩ := ih (update env P s) hedges1 hvel1
    have hstep : updateN env P (c + 1) s = updateN env P c (update env P s) := rfl
    rw [hstep]
    refine ⟨?_, o2, o3⟩
    rw [o1, u1, List.map_map]
    rfl

theorem updateN_succ (env : Env) (P : Params) :
    ∀ (k : ℕ) (s : GraphState),
      updateN env P (k + 1) s = update env P (updateN env P k s) := by
  intro k
  induction k with
  | zero => intro s; rfl
  | succ c ih => intro s; exact ih (update env P s)

/-- C8: on a model with an empty edge list and the noise magnitude parameter
zero, every node's computed acceleration in `update` is zero, and — the
initial velocities being zero, as `generateNode` value-initializes them —
after any number of `update` steps every node's position is unchanged. -/
theorem claim8_no_edges_no_noise_fixed_point (env : Env) (P : Params)
    (s : GraphState) (hedges : s.mEdges = []) (hnorm : P.perlinNoiseNorm = 0)
    (hvel : ∀ nd ∈ s.mNodes, nd.mVelocity = Vec3.zero) (k : ℕ) :
    (updateN env P k s).mNodes.map (fun nd => nd.mPosition)
        = s.mNodes.map (fun nd => nd.mPosition) ∧
    (∀ nd ∈ (updateN env P (k + 1) s).mNodes, nd.mAcceleration = Vec3.zero) := by
  obtain ⟨o1, _, _⟩ := updateN_zero_inv env P hnorm k s hedges hvel
  refine ⟨o1, ?_⟩
  obtain ⟨i1, i2, i3⟩ := updateN_zero_inv env P hnorm k s hedges hvel
  rw [updateN_succ env P k s]
  obtain ⟨u1, _⟩ := update_zero_step env P hnorm (updateN env P k s) i3 i2
  intro nd hnd
  rw [u1] at hnd
  obtain ⟨nd0, _, hnd2⟩ := List.mem_map.1 hnd
  rw [← hnd2]

/-- Witness for C8: one node at `(1, 2, 3)`, no edges, two steps. -/
theorem claim8_no_edges_no_noise_fixed_point_witness :
    (GraphState.mk [Node.mk (Vec3.mk 1 2 3) Vec3.zero Vec3.zero] [] rng0).mEdges = [] ∧
    P0.perlinNoiseNorm = 0 ∧
    ((updateN env0 P0 2
        (GraphState.mk [Node.mk (Vec3.mk 1 2 3) Vec3.zero Vec3.zero] [] rng0)).mNodes.map
          (fun nd => nd.mPosition)
        = (GraphState.mk [Node.mk (Vec3.mk 1 2 3) Vec3.zero Vec3.zero]
            [] rng0).mNodes.map (fun nd => nd.mPosition) ∧
     (∀ nd ∈ (updateN env0 P0 3
        (GraphState.mk [Node.mk (Vec3.mk 1 2 3) Vec3.zero Vec3.zero] [] rng0)).mNodes,
        nd.mAcceleration = Vec3.zero)) :=
  ⟨rfl, rfl, claim8_no_edges_no_noise_fixed_point env0 P0
    (GraphState.mk [Node.mk (Vec3.mk 1 2 3) Vec3.zero Vec3.zero] [] rng0) rfl rfl
    (by
      intro nd hnd
      simp only [List.mem_singleton] at hnd
      rw [hnd]) 2⟩

end RandomGraph
